import Mathlib

/-!
Verification development for the pachi search-tree module (uct/tree.c) and
the distributed-coordinator module (distributed/distributed.c).

The C code is shallowly embedded: C `int` fields become `Int` with C truncated
division rendered as `Int.tdiv`; the node pointer graph becomes an inductive
tree with an explicit child list; fallible parsing returns `Option`.
Definitions follow the source line by line.  Types declared in headers that
are not part of the two given source files (tree.h, board.h, stats.h) are
reconstructed from the specification where needed; each such definition is
marked in its doc comment.
-/

namespace Pachi

/-- One statistics accumulator, `struct move_stats` restricted to the two
fields tree.c reads and writes (`playouts`, `wins`); both are C ints
(tree.c prints them with %d and casts `wins` to double in tree_node_load).
The derived cached value is maintained by `tree_update_node_value` /
`tree_update_node_rvalue`, which live outside the given sources and whose
formula the spec declares out of scope (spec section 1 non-goals); no claim
mentions it, so it is omitted from the embedding. -/
structure MoveStats where
  playouts : Int
  wins : Int
  deriving DecidableEq, Repr

/-- The per-node payload of `struct tree_node` from the field `depth`
onward, exactly the region serialized by tree_node_save (it writes
`sizeof(struct tree_node) - offsetof(struct tree_node, depth)` bytes):
depth, coordinate, the three statistics channels, the two baseline
snapshots and the hint bitmask.  The fields before `depth` (hash and the
parent/sibling/children pointers) are diagnostic or structural and are
represented by the tree structure itself. -/
structure NodeData where
  depth : Int
  coord : Int
  u : MoveStats
  prior : MoveStats
  amaf : MoveStats
  pu : MoveStats
  pamaf : MoveStats
  hints : Nat
  deriving DecidableEq, Repr

/-- `struct tree_node`: payload plus the owned child list (the C sibling
chain hanging off `children`). -/
inductive TNode where
  | mk (data : NodeData) (children : List TNode)

def TNode.data : TNode → NodeData
  | .mk d _ => d

def TNode.children : TNode → List TNode
  | .mk _ cs => cs

@[simp] theorem TNode.data_mk (d : NodeData) (cs : List TNode) :
    (TNode.mk d cs).data = d := rfl

@[simp] theorem TNode.children_mk (d : NodeData) (cs : List TNode) :
    (TNode.mk d cs).children = cs := rfl

theorem TNode.mk_data_children (n : TNode) : TNode.mk n.data n.children = n := by
  cases n; rfl

/-- Structural induction principle for the nested inductive `TNode`. -/
theorem TNode.ind (P : TNode → Prop)
    (h : ∀ d cs, (∀ c ∈ cs, P c) → P (TNode.mk d cs)) : ∀ n, P n := by
  have key : ∀ k (n : TNode), sizeOf n ≤ k → P n := by
    intro k
    induction k with
    | zero =>
      intro n hn
      cases n with
      | mk d cs =>
        simp only [TNode.mk.sizeOf_spec] at hn
        omega
    | succ k ih =>
      intro n hn
      cases n with
      | mk d cs =>
        apply h
        intro c hc
        apply ih
        have hlt : sizeOf c < sizeOf cs := List.sizeOf_lt_of_mem hc
        simp at hn
        omega
  intro n
  exact key (sizeOf n) n le_rfl

/-- All nodes of a subtree, the node itself first (pre-order). -/
def TNode.subnodes : TNode → List TNode
  | .mk d cs => TNode.mk d cs :: (cs.attach.map (fun c => TNode.subnodes c.1)).flatten
decreasing_by
  have := List.sizeOf_lt_of_mem c.2
  simp
  omega

theorem TNode.subnodes_mk (d : NodeData) (cs : List TNode) :
    (TNode.mk d cs).subnodes = TNode.mk d cs :: (cs.map TNode.subnodes).flatten := by
  simp [TNode.subnodes]

/-! ## tree_node_normalize / tree_normalize (tree.c lines 324-350) -/

/-- The `normalize(s1, s2, t)` macro of tree_node_normalize applied to one
statistics channel: `s2.t = s1.t + (s2.t - s1.t) / factor` with C int
division (truncation toward zero, `Int.tdiv`), for both `playouts` and
`wins`. -/
def normStats (factor : Int) (base cur : MoveStats) : MoveStats :=
  { playouts := base.playouts + Int.tdiv (cur.playouts - base.playouts) factor
    wins := base.wins + Int.tdiv (cur.wins - base.wins) factor }

/-- The effect of tree_node_normalize on one node payload: normalize the
amaf channel against its `pamaf` baseline and re-snapshot `pamaf` (the
memcpy), then the same for `u` against `pu`. -/
def normData (factor : Int) (d : NodeData) : NodeData :=
  { d with
    amaf := normStats factor d.pamaf d.amaf
    pamaf := normStats factor d.pamaf d.amaf
    u := normStats factor d.pu d.u
    pu := normStats factor d.pu d.u }

/-- `tree_node_normalize`: recursively normalize every child, then the
node itself. -/
def TNode.normalize (factor : Int) : TNode → TNode
  | .mk d cs => TNode.mk (normData factor d) (cs.attach.map (fun c => TNode.normalize factor c.1))
decreasing_by
  have := List.sizeOf_lt_of_mem c.2
  simp
  omega

theorem TNode.normalize_mk (factor : Int) (d : NodeData) (cs : List TNode) :
    TNode.normalize factor (TNode.mk d cs)
      = TNode.mk (normData factor d) (cs.map (TNode.normalize factor)) := by
  simp [TNode.normalize]

/-- A search tree, `struct tree`: the root node plus the root metadata
tree.c manipulates.  The board pointer is replaced by the board data the
functions read (size and symmetry, section below); `root_color` is a
Boolean stone color (true = white). -/
structure SymRegion where
  x1 : Int
  y1 : Int
  x2 : Int
  y2 : Int
  d : Bool
  isDiagDown : Bool
  deriving DecidableEq, Repr

structure Tree where
  root : TNode
  rootColorWhite : Bool
  rootSymmetry : SymRegion
  maxDepth : Int

/-- `tree_normalize`: normalize from the root. -/
def Tree.normalize (t : Tree) (factor : Int) : Tree :=
  { t with root := t.root.normalize factor }

theorem subnodes_normalize (factor : Int) :
    ∀ n : TNode, (TNode.normalize factor n).subnodes.map TNode.data
      = n.subnodes.map (fun m => normData factor m.data) := by
  apply TNode.ind
  intro d cs ih
  rw [TNode.normalize_mk, TNode.subnodes_mk, TNode.subnodes_mk]
  simp only [List.map_cons, TNode.data_mk, List.map_map, List.map_flatten]
  congr 1
  congr 1
  apply List.map_congr_left
  intro c hc
  simpa using ih c hc

/-- C3: tree_normalize(tree, f) sets, at every node and for both the u and
amaf channels, each statistic (playouts and wins) to
baseline + (current - baseline)/f (C int division), and re-snapshots the
baselines pu and pamaf to exactly these new values. -/
theorem tree_normalize_every_node (t : Tree) (f : Int) (hf : f ≠ 0) :
    (Tree.normalize t f).root.subnodes.map TNode.data
      = t.root.subnodes.map (fun m =>
          { m.data with
            amaf := { playouts := m.data.pamaf.playouts
                        + Int.tdiv (m.data.amaf.playouts - m.data.pamaf.playouts) f
                      wins := m.data.pamaf.wins
                        + Int.tdiv (m.data.amaf.wins - m.data.pamaf.wins) f }
            pamaf := { playouts := m.data.pamaf.playouts
                         + Int.tdiv (m.data.amaf.playouts - m.data.pamaf.playouts) f
                       wins := m.data.pamaf.wins
                         + Int.tdiv (m.data.amaf.wins - m.data.pamaf.wins) f }
            u := { playouts := m.data.pu.playouts
                     + Int.tdiv (m.data.u.playouts - m.data.pu.playouts) f
                   wins := m.data.pu.wins
                     + Int.tdiv (m.data.u.wins - m.data.pu.wins) f }
            pu := { playouts := m.data.pu.playouts
                      + Int.tdiv (m.data.u.playouts - m.data.pu.playouts) f
                    wins := m.data.pu.wins
                      + Int.tdiv (m.data.u.wins - m.data.pu.wins) f } }) := by
  have hforms : (fun m : TNode =>
      { m.data with
        amaf := { playouts := m.data.pamaf.playouts
                    + Int.tdiv (m.data.amaf.playouts - m.data.pamaf.playouts) f
                  wins := m.data.pamaf.wins
                    + Int.tdiv (m.data.amaf.wins - m.data.pamaf.wins) f }
        pamaf := { playouts := m.data.pamaf.playouts
                     + Int.tdiv (m.data.amaf.playouts - m.data.pamaf.playouts) f
                   wins := m.data.pamaf.wins
                     + Int.tdiv (m.data.amaf.wins - m.data.pamaf.wins) f }
        u := { playouts := m.data.pu.playouts
                 + Int.tdiv (m.data.u.playouts - m.data.pu.playouts) f
               wins := m.data.pu.wins
                 + Int.tdiv (m.data.u.wins - m.data.pu.wins) f }
        pu := { playouts := m.data.pu.playouts
                  + Int.tdiv (m.data.u.playouts - m.data.pu.playouts) f
                wins := m.data.pu.wins
                  + Int.tdiv (m.data.u.wins - m.data.pu.wins) f } } : TNode → NodeData)
      = fun m => normData f m.data := by
    funext m
    rfl
  rw [hforms]
  exact subnodes_normalize f t.root

/-- Sample node payloads for concrete evaluations. -/
def msZero : MoveStats := { playouts := 0, wins := 0 }

def dataA : NodeData :=
  { depth := 1, coord := 6, u := { playouts := 10, wins := 7 }
    prior := { playouts := 2, wins := 1 }, amaf := { playouts := 8, wins := 3 }
    pu := { playouts := 4, wins := 2 }, pamaf := { playouts := 2, wins := 2 }
    hints := 5 }

def dataB : NodeData :=
  { depth := 0, coord := -1, u := { playouts := 21, wins := 11 }
    prior := msZero, amaf := { playouts := 9, wins := 4 }
    pu := { playouts := 9, wins := 5 }, pamaf := { playouts := 3, wins := 1 }
    hints := 2 }

def treeEx : Tree :=
  { root := TNode.mk dataB [TNode.mk dataA []]
    rootColorWhite := true
    rootSymmetry := { x1 := 0, y1 := 0, x2 := 4, y2 := 4, d := false, isDiagDown := false }
    maxDepth := 1 }

/-- Witness for C3 at a concrete two-node tree and factor 2. -/
theorem tree_normalize_every_node_witness :
    (2 : Int) ≠ 0 ∧
    (Tree.normalize treeEx 2).root.subnodes.map TNode.data
      = treeEx.root.subnodes.map (fun m =>
          { m.data with
            amaf := { playouts := m.data.pamaf.playouts
                        + Int.tdiv (m.data.amaf.playouts - m.data.pamaf.playouts) 2
                      wins := m.data.pamaf.wins
                        + Int.tdiv (m.data.amaf.wins - m.data.pamaf.wins) 2 }
            pamaf := { playouts := m.data.pamaf.playouts
                         + Int.tdiv (m.data.amaf.playouts - m.data.pamaf.playouts) 2
                       wins := m.data.pamaf.wins
                         + Int.tdiv (m.data.amaf.wins - m.data.pamaf.wins) 2 }
            u := { playouts := m.data.pu.playouts
                     + Int.tdiv (m.data.u.playouts - m.data.pu.playouts) 2
                   wins := m.data.pu.wins
                     + Int.tdiv (m.data.u.wins - m.data.pu.wins) 2 }
            pu := { playouts := m.data.pu.playouts
                      + Int.tdiv (m.data.u.playouts - m.data.pu.playouts) 2
                    wins := m.data.pu.wins
                      + Int.tdiv (m.data.u.wins - m.data.pu.wins) 2 } }) :=
  ⟨by decide, tree_normalize_every_node treeEx 2 (by decide)⟩

/-! ## tree_node_merge / tree_merge (tree.c lines 245-321) -/

/-- Locate the first node with the given coordinate in a sibling list,
returning the siblings before it, the node, and the siblings after it.
This renders the `si2` scan of tree_node_merge (lines 263-267). -/
def splitAtCoord (c : Int) : List TNode → Option (List TNode × TNode × List TNode)
  | [] => none
  | n :: ns =>
    if n.data.coord = c then some ([], n, ns)
    else match splitAtCoord c ns with
         | none => none
         | some (p, m, s) => some (n :: p, m, s)

theorem splitAtCoord_sizeOf {c : Int} : ∀ {l : List TNode} {p m s},
    splitAtCoord c l = some (p, m, s) →
    sizeOf p + sizeOf m + sizeOf s = sizeOf l := by
  intro l
  induction l with
  | nil => intro p m s h; simp [splitAtCoord] at h
  | cons n ns ih =>
    intro p m s h
    simp only [splitAtCoord] at h
    split at h
    · simp only [Option.some.injEq, Prod.mk.injEq] at h
      obtain ⟨hp, hm, hs⟩ := h
      subst hp hm hs
      simp
    · cases hrec : splitAtCoord c ns with
      | none => rw [hrec] at h; simp at h
      | some pms =>
        obtain ⟨p2, m2, s2⟩ := pms
        rw [hrec] at h
        simp only [Option.some.injEq, Prod.mk.injEq] at h
        obtain ⟨hp, hm, hs⟩ := h
        subst hp hm hs
        have := ih hrec
        simp
        omega

theorem TNode.sizeOf_pos (n : TNode) : 1 ≤ sizeOf n := by
  cases n with
  | mk d cs => simp; omega

theorem sizeOf_list_pos (l : List TNode) : 1 ≤ sizeOf l := by
  cases l with
  | nil => simp
  | cons a t => simp; omega

mutual

/-- `tree_node_merge` (destructive in C, functional here): return the
merged dest node.  If src has no playouts beyond its baseline snapshot in
either channel the pair is skipped and dest is returned untouched (lines
251-254); otherwise the hint masks are OR-ed, the child lists are merged
coordinate-wise, and the amaf and u statistics of src are summed into
dest.  The derived-value recomputation (tree_update_node_rvalue and
tree_update_node_value) touches only the cached value, which is outside
the given sources and not part of the embedding; the amaf_prior flag feeds
only that recomputation and is dropped. -/
def mergeNode : TNode → TNode → TNode
  | .mk dd dcs, .mk sd scs =>
    if sd.amaf.playouts - sd.pamaf.playouts = 0 ∧ sd.u.playouts - sd.pu.playouts = 0 then
      TNode.mk dd dcs
    else
      TNode.mk
        { dd with
          hints := dd.hints ||| sd.hints
          amaf := { playouts := dd.amaf.playouts + sd.amaf.playouts
                    wins := dd.amaf.wins + sd.amaf.wins }
          u := { playouts := dd.u.playouts + sd.u.playouts
                 wins := dd.u.wins + sd.u.wins } }
        (mergeChildren dcs scs)
termination_by d s => sizeOf d + sizeOf s
decreasing_by
  simp
  omega

/-- The child-list zip of tree_node_merge (lines 258-297): both lists are
walked in step; on a coordinate mismatch the src tail is scanned for the
dest coordinate, and if found the run of src nodes before it is spliced in
front of the dest node; if src misses the dest coordinate the dest node is
kept as is; src nodes remaining after dest is exhausted are appended. -/
def mergeChildren : List TNode → List TNode → List TNode
  | [], si => si
  | di :: ds, [] => di :: ds
  | di :: ds, si :: ss =>
    if di.data.coord = si.data.coord then
      mergeNode di si :: mergeChildren ds ss
    else
      match hsp : splitAtCoord di.data.coord ss with
      | none => di :: mergeChildren ds (si :: ss)
      | some (pre, m, post) => si :: (pre ++ (mergeNode di m :: mergeChildren ds post))
termination_by l1 l2 => sizeOf l1 + sizeOf l2
decreasing_by
  all_goals simp
  all_goals try omega
  all_goals have h1 := splitAtCoord_sizeOf hsp
  all_goals have h2 := sizeOf_list_pos pre
  all_goals have h3 := sizeOf_list_pos post
  all_goals have h4 := TNode.sizeOf_pos m
  all_goals omega

end

/-- `tree_merge` (lines 315-321): raise max_depth if src is deeper, then
merge the roots. -/
def Tree.merge (dest src : Tree) : Tree :=
  { dest with
    maxDepth := if dest.maxDepth < src.maxDepth then src.maxDepth else dest.maxDepth
    root := mergeNode dest.root src.root }

/-- Unfolding equation for mergeNode on constructor arguments. -/
theorem mergeNode_eq (dd sd : NodeData) (dcs scs : List TNode) :
    mergeNode (TNode.mk dd dcs) (TNode.mk sd scs)
      = if sd.amaf.playouts - sd.pamaf.playouts = 0 ∧ sd.u.playouts - sd.pu.playouts = 0 then
          TNode.mk dd dcs
        else
          TNode.mk
            { dd with
              hints := dd.hints ||| sd.hints
              amaf := { playouts := dd.amaf.playouts + sd.amaf.playouts
                        wins := dd.amaf.wins + sd.amaf.wins }
              u := { playouts := dd.u.playouts + sd.u.playouts
                     wins := dd.u.wins + sd.u.wins } }
            (mergeChildren dcs scs) := by
  rw [mergeNode]

/-- C1 amended: at every matched node pair of a merge (every invocation of
tree_node_merge, the root pair of tree_merge included), when the pair is
not skipped (src shows a playout delta over its baseline in some channel)
the merged u.playouts is the pre-merge dest u.playouts plus the FULL src
u.playouts (baseline plus delta), not dest plus the delta alone; likewise
for amaf.  The claimed pre + delta value is obtained exactly when the
corresponding src baseline snapshot is zero. -/
theorem tree_node_merge_adds_full_src (dest src : TNode)
    (hne : ¬(src.data.amaf.playouts - src.data.pamaf.playouts = 0
             ∧ src.data.u.playouts - src.data.pu.playouts = 0)) :
    (mergeNode dest src).data.u.playouts
        = dest.data.u.playouts + src.data.u.playouts
    ∧ (mergeNode dest src).data.amaf.playouts
        = dest.data.amaf.playouts + src.data.amaf.playouts
    ∧ (src.data.pu.playouts = 0 →
        (mergeNode dest src).data.u.playouts
          = dest.data.u.playouts + (src.data.u.playouts - src.data.pu.playouts))
    ∧ (src.data.pamaf.playouts = 0 →
        (mergeNode dest src).data.amaf.playouts
          = dest.data.amaf.playouts
            + (src.data.amaf.playouts - src.data.pamaf.playouts))
    ∧ (∀ t1 t2 : Tree, (Tree.merge t1 t2).root = mergeNode t1.root t2.root) := by
  cases dest with
  | mk dd dcs =>
    cases src with
    | mk sd scs =>
      simp only [TNode.data_mk] at hne ⊢
      rw [mergeNode_eq]
      rw [if_neg hne]
      refine ⟨rfl, rfl, ?_, ?_, fun t1 t2 => rfl⟩
      · intro h0
        simp [h0]
      · intro h0
        simp [h0]

/-- Single-node trees for the C1 counterexample: equal baseline snapshots
(pu.playouts = 5 both sides), dest carries 10 u-playouts, src carries 7. -/
def destC1 : Tree :=
  { root := TNode.mk
      { depth := 0, coord := -1
        u := { playouts := 10, wins := 4 }, prior := msZero
        amaf := msZero, pu := { playouts := 5, wins := 2 }, pamaf := msZero
        hints := 0 } []
    rootColorWhite := true
    rootSymmetry := { x1 := 0, y1 := 0, x2 := 4, y2 := 4, d := false, isDiagDown := false }
    maxDepth := 0 }

def srcC1 : Tree :=
  { root := TNode.mk
      { depth := 0, coord := -1
        u := { playouts := 7, wins := 3 }, prior := msZero
        amaf := msZero, pu := { playouts := 5, wins := 2 }, pamaf := msZero
        hints := 0 } []
    rootColorWhite := true
    rootSymmetry := { x1 := 0, y1 := 0, x2 := 4, y2 := 4, d := false, isDiagDown := false }
    maxDepth := 0 }

/-- C1 counterexample: the two trees share the baseline (pu.playouts = 5,
pamaf.playouts = 0 on both sides), src has delta 7 - 5 = 2, yet after
tree_merge the dest root holds 10 + 7 = 17 u-playouts, not the
10 + 2 = 12 the claim predicts. -/
theorem tree_merge_not_delta_counterexample :
    destC1.root.data.pu.playouts = srcC1.root.data.pu.playouts
    ∧ destC1.root.data.pamaf.playouts = srcC1.root.data.pamaf.playouts
    ∧ (Tree.merge destC1 srcC1).root.data.u.playouts = 17
    ∧ ¬((Tree.merge destC1 srcC1).root.data.u.playouts
          = destC1.root.data.u.playouts
            + (srcC1.root.data.u.playouts - srcC1.root.data.pu.playouts)) := by
  have hroot : (Tree.merge destC1 srcC1).root.data.u.playouts = 17 := by
    show (mergeNode destC1.root srcC1.root).data.u.playouts = 17
    rw [show destC1.root = TNode.mk destC1.root.data [] from rfl]
    rw [show srcC1.root = TNode.mk srcC1.root.data [] from rfl]
    rw [mergeNode_eq]
    norm_num [destC1, srcC1]
  refine ⟨rfl, rfl, hroot, ?_⟩
  rw [hroot]
  decide

/-- Witness for the amended C1 theorem at the counterexample trees. -/
theorem tree_node_merge_adds_full_src_witness :
    (mergeNode destC1.root srcC1.root).data.u.playouts
      = destC1.root.data.u.playouts + srcC1.root.data.u.playouts :=
  (tree_node_merge_adds_full_src destC1.root srcC1.root (by decide)).1

/-- C7 amended: in the matched-baseline context the code asserts at
tree.c:249-250 (dest and src share the baseline snapshot playout counts
of both channels), a matched pair is skipped (the merge returns dest
exactly as it was, with no hint OR-ing, child splicing or statistic
summing) if and only if SRC has accumulated no playouts beyond the
shared baseline in either channel; the dest side is never consulted.
The monotonicity hypotheses (baseline between 0 and the current count)
are the baseline invariant of the data model; h5 and h6 render the
asserts. -/
theorem tree_node_merge_skip_iff (dest src : TNode)
    (h1 : 0 ≤ src.data.pamaf.playouts)
    (h2 : src.data.pamaf.playouts ≤ src.data.amaf.playouts)
    (h3 : 0 ≤ src.data.pu.playouts)
    (h4 : src.data.pu.playouts ≤ src.data.u.playouts)
    (h5 : dest.data.pu.playouts = src.data.pu.playouts)
    (h6 : dest.data.pamaf.playouts = src.data.pamaf.playouts) :
    mergeNode dest src = dest
      ↔ (src.data.amaf.playouts = src.data.pamaf.playouts
         ∧ src.data.u.playouts = src.data.pu.playouts) := by
  cases dest with
  | mk dd dcs =>
    cases src with
    | mk sd scs =>
      simp only [TNode.data_mk] at h1 h2 h3 h4 ⊢
      rw [mergeNode_eq]
      by_cases hskip : sd.amaf.playouts - sd.pamaf.playouts = 0
          ∧ sd.u.playouts - sd.pu.playouts = 0
      · rw [if_pos hskip]
        constructor
        · intro _
          omega
        · intro _
          rfl
      · rw [if_neg hskip]
        constructor
        · intro heq
          exfalso
          have hdata := congrArg TNode.data heq
          simp only [TNode.data_mk] at hdata
          have hu := congrArg (fun d => d.u.playouts) hdata
          have ha := congrArg (fun d => d.amaf.playouts) hdata
          simp at hu ha
          omega
        · intro hyp
          exfalso
          omega

/-- Nodes for the C7 counterexample.  The pair satisfies the
baseline-equality asserts of tree.c:249-250 (pu.playouts 2 = 2,
pamaf.playouts 4 = 4): dest has a u delta (7 playouts over the shared
baseline of 2) while src has none; different hint masks make the skipped
OR visible. -/
def destC7 : TNode :=
  TNode.mk
    { depth := 1, coord := 8
      u := { playouts := 7, wins := 3 }, prior := msZero
      amaf := { playouts := 4, wins := 1 }
      pu := { playouts := 2, wins := 1 }, pamaf := { playouts := 4, wins := 1 }
      hints := 1 } []

def srcC7 : TNode :=
  TNode.mk
    { depth := 1, coord := 8
      u := { playouts := 2, wins := 1 }, prior := msZero
      amaf := { playouts := 4, wins := 1 }
      pu := { playouts := 2, wins := 1 }, pamaf := { playouts := 4, wins := 1 }
      hints := 2 } []

/-- C7 counterexample: the baselines are matched as the code asserts,
dest has accumulated playouts beyond the shared baseline (7 over 2)
while src has none, and the pair IS skipped entirely (dest returned
untouched, hints not OR-ed), contradicting the claimed "if and only if
neither dest nor src has accumulated any playouts". -/
theorem tree_node_merge_skip_counterexample :
    destC7.data.pu.playouts = srcC7.data.pu.playouts
    ∧ destC7.data.pamaf.playouts = srcC7.data.pamaf.playouts
    ∧ mergeNode destC7 srcC7 = destC7
    ∧ destC7.data.u.playouts - destC7.data.pu.playouts ≠ 0
    ∧ (mergeNode destC7 srcC7).data.hints ≠ destC7.data.hints ||| srcC7.data.hints := by
  have hskip : mergeNode destC7 srcC7 = destC7 := by
    rw [show destC7 = TNode.mk destC7.data [] from rfl]
    rw [show srcC7 = TNode.mk srcC7.data [] from rfl]
    rw [mergeNode_eq]
    norm_num [destC7, srcC7]
  refine ⟨rfl, rfl, hskip, by decide, ?_⟩
  rw [hskip]
  decide

/-- Witness for the amended C7 theorem: at the counterexample pair the
baselines are matched and the skip condition holds on src, so the merge
is the identity on dest. -/
theorem tree_node_merge_skip_iff_witness :
    mergeNode destC7 srcC7 = destC7 :=
  (tree_node_merge_skip_iff destC7 srcC7 (by decide) (by decide) (by decide)
    (by decide) (by decide) (by decide)).mpr (by decide)

/-! ## tree_node_save / tree_node_load (tree.c lines 130-215) -/

/-- A token of the opening-book stream: a marker byte (`fputc 1` /
`fputc 0`) or the fixed-size payload image written by one fwrite.  Since
fread reproduces the fwrite byte image exactly, the payload is modelled as
the NodeData record itself. -/
inductive BookTok where
  | mark (b : Bool)
  | payload (d : NodeData)
  deriving DecidableEq, Repr

/-- Map over attached members, forgetting the membership proof. -/
theorem attach_map_sub {a b : Type} (l : List a) (g : a → b) :
    l.attach.map (fun c => g c.1) = l.map g := by
  simp

/-- The stream written by tree_node_save after its leading presence
marker: the payload, then the children (each with its own presence marker)
provided the node has at least `thres` u-playouts, then the terminating
zero marker. -/
def bodyToks (thres : Int) : TNode → List BookTok
  | .mk d cs =>
    BookTok.payload d ::
      ((if thres ≤ d.u.playouts then
          (cs.attach.map (fun c => BookTok.mark true :: bodyToks thres c.1)).flatten
        else [])
       ++ [BookTok.mark false])
decreasing_by
  have := List.sizeOf_lt_of_mem c.2
  simp
  omega

/-- `tree_node_save` (lines 130-143): presence marker followed by the body. -/
def saveNode (thres : Int) (n : TNode) : List BookTok :=
  BookTok.mark true :: bodyToks thres n

theorem bodyToks_mk (thres : Int) (d : NodeData) (cs : List TNode) :
    bodyToks thres (TNode.mk d cs)
      = BookTok.payload d ::
          ((if thres ≤ d.u.playouts then (cs.map (saveNode thres)).flatten else [])
           ++ [BookTok.mark false]) := by
  rw [bodyToks]
  rw [attach_map_sub cs (fun x => BookTok.mark true :: bodyToks thres x)]
  rfl

/-- `tree_save` (lines 145-157): the root stream plus the extra trailing
zero byte. -/
def Tree.save (t : Tree) (thres : Int) : List BookTok :=
  saveNode thres t.root ++ [BookTok.mark false]

/-- The hard playout ceiling of tree_node_load (tree.c line 172). -/
def MAX_PLAYOUTS : Int := 10000000

/-- The overflow clamp of tree_node_load (lines 173-182) on one channel:
if playouts exceed the ceiling, the C code executes
`wins -= ((double) wins / playouts) * over; playouts = MAX_PLAYOUTS;` with
`over = playouts - MAX_PLAYOUTS`.  Taking the double arithmetic at its
exact rational value, the int compound assignment truncates
wins - wins*over/playouts = wins*MAX_PLAYOUTS/playouts toward zero,
rendered as `Int.tdiv`. -/
def clampStats (s : MoveStats) : MoveStats :=
  if MAX_PLAYOUTS < s.playouts then
    { playouts := MAX_PLAYOUTS
      wins := Int.tdiv (s.wins * MAX_PLAYOUTS) s.playouts }
  else s

/-- The payload handling of tree_node_load (lines 160-186): read the
payload back verbatim, clamp the u and amaf channels, then memcpy the
clamped values into the pamaf and pu baseline snapshots. -/
def loadData (d : NodeData) : NodeData :=
  { d with
    u := clampStats d.u
    amaf := clampStats d.amaf
    pu := clampStats d.u
    pamaf := clampStats d.amaf }

mutual

/-- The loader, fuelled (the C recursion is bounded by the input stream,
which the fuel mirrors): loadNode is tree_node_load after the caller
consumed the presence marker (payload first, then the child loop). -/
def loadNode (fuel : Nat) (toks : List BookTok) : Option (TNode × List BookTok) :=
  match toks with
  | BookTok.payload d :: rest =>
    match fuel with
    | 0 => none
    | f + 1 =>
      match loadSibs f rest with
      | none => none
      | some (cs, rest2) => some (TNode.mk (loadData d) cs, rest2)
  | _ => none

/-- The `while (fgetc(f))` child loop of tree_node_load (lines 187-196):
a zero marker ends the sibling list, a one marker starts a child node. -/
def loadSibs (fuel : Nat) (toks : List BookTok) : Option (List TNode × List BookTok) :=
  match toks with
  | BookTok.mark false :: rest => some ([], rest)
  | BookTok.mark true :: rest =>
    match fuel with
    | 0 => none
    | f + 1 =>
      match loadNode f rest with
      | none => none
      | some (n, rest2) =>
        match loadSibs f rest2 with
        | none => none
        | some (ns, rest3) => some (n :: ns, rest3)
  | _ => none

end

/-- `tree_load` (lines 199-215): if the first byte is nonzero, load the
root in place; otherwise (or on a malformed stream) the fresh tree
stands.  A missing file is the empty interaction and is not modelled. -/
def Tree.load (t : Tree) (toks : List BookTok) : Tree :=
  match toks with
  | BookTok.mark true :: rest =>
    match loadNode rest.length rest with
    | some (n, _) => { t with root := n }
    | none => t
  | _ => t

/-- What one save/load cycle does to a tree, node by node: drop the
children of nodes under the save threshold, clamp each surviving payload
and re-snapshot its baselines. -/
def transform (thres : Int) : TNode → TNode
  | .mk d cs =>
    TNode.mk (loadData d)
      (if thres ≤ d.u.playouts then cs.attach.map (fun c => transform thres c.1) else [])
decreasing_by
  have := List.sizeOf_lt_of_mem c.2
  simp
  omega

theorem transform_mk (thres : Int) (d : NodeData) (cs : List TNode) :
    transform thres (TNode.mk d cs)
      = TNode.mk (loadData d)
          (if thres ≤ d.u.playouts then cs.map (transform thres) else []) := by
  rw [transform]
  rw [attach_map_sub cs (fun x => transform thres x)]

/-- The set of serialized nodes: children of nodes under the threshold
are dropped, payloads kept verbatim. -/
def pruneAt (thres : Int) : TNode → TNode
  | .mk d cs =>
    TNode.mk d
      (if thres ≤ d.u.playouts then cs.attach.map (fun c => pruneAt thres c.1) else [])
decreasing_by
  have := List.sizeOf_lt_of_mem c.2
  simp
  omega

theorem pruneAt_mk (thres : Int) (d : NodeData) (cs : List TNode) :
    pruneAt thres (TNode.mk d cs)
      = TNode.mk d
          (if thres ≤ d.u.playouts then cs.map (pruneAt thres) else []) := by
  rw [pruneAt]
  rw [attach_map_sub cs (fun x => pruneAt thres x)]

theorem bodyToks_length_ge (thres : Int) (n : TNode) :
    2 ≤ (bodyToks thres n).length := by
  cases n with
  | mk d cs =>
    rw [bodyToks_mk]
    simp

theorem loadNode_payload_eq (f : Nat) (d : NodeData) (r : List BookTok) :
    loadNode (f + 1) (BookTok.payload d :: r)
      = match loadSibs f r with
        | none => none
        | some (cs, r2) => some (TNode.mk (loadData d) cs, r2) := rfl

theorem loadSibs_false_eq (f : Nat) (r : List BookTok) :
    loadSibs f (BookTok.mark false :: r) = some ([], r) := by
  cases f <;> rfl

theorem loadSibs_true_eq (f : Nat) (r : List BookTok) :
    loadSibs (f + 1) (BookTok.mark true :: r)
      = match loadNode f r with
        | none => none
        | some (n, r2) =>
          match loadSibs f r2 with
          | none => none
          | some (ns, r3) => some (n :: ns, r3) := rfl

theorem loadSibs_chunks (thres : Int) : ∀ (cs : List TNode),
    (∀ c ∈ cs, ∀ (f2 : Nat) (r2 : List BookTok),
       (bodyToks thres c).length ≤ f2 →
       loadNode f2 (bodyToks thres c ++ r2) = some (transform thres c, r2)) →
    ∀ (f2 : Nat) (r2 : List BookTok),
    ((cs.map (saveNode thres)).flatten).length ≤ f2 →
    loadSibs f2 ((cs.map (saveNode thres)).flatten ++ (BookTok.mark false :: r2))
      = some (cs.map (transform thres), r2) := by
  intro cs
  induction cs with
  | nil =>
    intro _ f2 r2 _
    simp only [List.map_nil, List.flatten_nil, List.nil_append]
    rw [loadSibs_false_eq]
  | cons c ct ihc =>
    intro hmem f2 r2 hlen
    simp only [List.map_cons, List.flatten_cons, List.length_append, saveNode,
      List.length_cons] at hlen
    have hb2 := bodyToks_length_ge thres c
    obtain ⟨f3, rfl⟩ : ∃ f3, f2 = f3 + 1 := ⟨f2 - 1, by omega⟩
    have hstream : ((BookTok.mark true :: bodyToks thres c)
          ++ (ct.map (saveNode thres)).flatten) ++ (BookTok.mark false :: r2)
        = BookTok.mark true :: (bodyToks thres c
            ++ ((ct.map (saveNode thres)).flatten ++ (BookTok.mark false :: r2))) := by
      simp [saveNode]
    rw [show ((c :: ct).map (saveNode thres)).flatten
        = (BookTok.mark true :: bodyToks thres c) ++ (ct.map (saveNode thres)).flatten from by
      simp [saveNode]]
    rw [hstream, loadSibs_true_eq]
    rw [hmem c (List.mem_cons_self c ct) f3 _ (by omega)]
    dsimp only
    rw [ihc (fun x hx => hmem x (List.mem_cons_of_mem c hx)) f3 r2 (by omega)]
    simp

theorem loadNode_bodyToks (thres : Int) : ∀ n : TNode, ∀ (f : Nat) (rest : List BookTok),
    (bodyToks thres n).length ≤ f →
    loadNode f (bodyToks thres n ++ rest) = some (transform thres n, rest) := by
  apply TNode.ind
  intro d cs ih f rest hf
  rw [bodyToks_mk] at hf ⊢
  rw [transform_mk]
  simp only [List.length_cons, List.length_append, List.length_singleton] at hf
  obtain ⟨f1, rfl⟩ : ∃ f1, f = f1 + 1 := ⟨f - 1, by omega⟩
  rw [List.cons_append, loadNode_payload_eq]
  by_cases hth : thres ≤ d.u.playouts
  · rw [if_pos hth] at hf ⊢
    have hstream : ((cs.map (saveNode thres)).flatten ++ [BookTok.mark false]) ++ rest
        = (cs.map (saveNode thres)).flatten ++ (BookTok.mark false :: rest) := by
      simp
    rw [hstream]
    rw [loadSibs_chunks thres cs ih f1 rest (by omega)]
    simp [hth]
  · rw [if_neg hth] at hf ⊢
    have hstream2 : (([] : List BookTok) ++ [BookTok.mark false]) ++ rest
        = BookTok.mark false :: rest := by simp
    rw [hstream2, loadSibs_false_eq]
    simp [hth]

theorem treeLoad_eq (t : Tree) (rest : List BookTok) :
    Tree.load t (BookTok.mark true :: rest)
      = match loadNode rest.length rest with
        | some (n, _) => { t with root := n }
        | none => t := rfl

theorem subnodes_transform (thres : Int) :
    ∀ n : TNode, (transform thres n).subnodes.map TNode.data
      = (pruneAt thres n).subnodes.map (fun m => loadData m.data) := by
  apply TNode.ind
  intro d cs ih
  rw [transform_mk, pruneAt_mk]
  by_cases hth : thres ≤ d.u.playouts
  · rw [if_pos hth, if_pos hth, TNode.subnodes_mk, TNode.subnodes_mk]
    simp only [List.map_cons, TNode.data_mk, List.map_map, List.map_flatten]
    congr 1
    congr 1
    apply List.map_congr_left
    intro c hc
    simpa using ih c hc
  · rw [if_neg hth, if_neg hth, TNode.subnodes_mk, TNode.subnodes_mk]
    simp

/-- C4 amended: a save at threshold t followed by a load on a fresh tree
yields exactly the transform that prunes children of under-threshold
nodes, clamps each payload and re-snapshots its baselines; per serialized
node, coordinate and statistics are reproduced exactly when the playout
counts do not exceed the 10,000,000 ceiling (only the baseline snapshots
are re-initialized to the loaded values, as the loader always does), and a
channel exceeding the ceiling is clamped to ceiling playouts with wins
replaced by wins*ceiling/playouts truncated toward zero, preserving the
mean only up to that integer truncation. -/
theorem tree_save_load_roundtrip :
    (∀ (t fresh : Tree) (thres : Int),
        (Tree.load fresh (Tree.save t thres)).root = transform thres t.root)
    ∧ (∀ (thres : Int) (n : TNode),
        (transform thres n).subnodes.map TNode.data
          = (pruneAt thres n).subnodes.map (fun m => loadData m.data))
    ∧ (∀ d : NodeData, d.u.playouts ≤ MAX_PLAYOUTS → d.amaf.playouts ≤ MAX_PLAYOUTS →
        loadData d = { d with pu := d.u, pamaf := d.amaf })
    ∧ (∀ d : NodeData, MAX_PLAYOUTS < d.u.playouts →
        (loadData d).u.playouts = MAX_PLAYOUTS
        ∧ (loadData d).u.wins = Int.tdiv (d.u.wins * MAX_PLAYOUTS) d.u.playouts
        ∧ (loadData d).coord = d.coord)
    ∧ (∀ d : NodeData, MAX_PLAYOUTS < d.amaf.playouts →
        (loadData d).amaf.playouts = MAX_PLAYOUTS
        ∧ (loadData d).amaf.wins = Int.tdiv (d.amaf.wins * MAX_PLAYOUTS) d.amaf.playouts) := by
  refine ⟨?_, subnodes_transform, ?_, ?_, ?_⟩
  · intro t fresh thres
    have hsave : Tree.save t thres
        = BookTok.mark true :: (bodyToks thres t.root ++ [BookTok.mark false]) := by
      simp [Tree.save, saveNode]
    rw [hsave, treeLoad_eq]
    rw [loadNode_bodyToks thres t.root _ _ (by simp)]
  · intro d h1 h2
    have h1b : ¬ MAX_PLAYOUTS < d.u.playouts := not_lt.mpr h1
    have h2b : ¬ MAX_PLAYOUTS < d.amaf.playouts := not_lt.mpr h2
    simp [loadData, clampStats, h1b, h2b]
  · intro d h1
    simp [loadData, clampStats, h1]
  · intro d h1
    simp [loadData, clampStats, h1]

/-- Witness for the amended C4 theorem: a concrete sub-ceiling payload is
reproduced exactly (baselines re-snapshotted), and a concrete payload of
20,000,000 u-playouts is clamped with truncated proportional wins. -/
theorem tree_save_load_roundtrip_witness :
    loadData dataA = { dataA with pu := dataA.u, pamaf := dataA.amaf } :=
  tree_save_load_roundtrip.2.2.1 dataA (by decide) (by decide)

/-- A single-node tree whose root holds 20,000,000 u-playouts and 3 wins:
its exact mean is 3 / 20000000 = 1.5e-7, which no integer wins count over
the clamped 10,000,000 playouts can represent. -/
def bigData : NodeData :=
  { depth := 0, coord := -1
    u := { playouts := 20000000, wins := 3 }, prior := msZero
    amaf := msZero, pu := msZero, pamaf := msZero
    hints := 0 }

def bigTree : Tree :=
  { root := TNode.mk bigData []
    rootColorWhite := true
    rootSymmetry := { x1 := 0, y1 := 0, x2 := 4, y2 := 4, d := false, isDiagDown := false }
    maxDepth := 0 }

def freshC4 : Tree :=
  { root := TNode.mk
      { depth := 0, coord := -1, u := msZero, prior := msZero
        amaf := msZero, pu := msZero, pamaf := msZero, hints := 0 } []
    rootColorWhite := true
    rootSymmetry := { x1 := 0, y1 := 0, x2 := 4, y2 := 4, d := false, isDiagDown := false }
    maxDepth := 0 }

/-- C4 counterexample: saving and loading the 20,000,000-playout node
clamps playouts to 10,000,000 and truncates wins to 1, so the loaded mean
is 1e-7 while the saved mean was 1.5e-7 - the claim that the mean
wins/playouts is left unchanged fails. -/
theorem tree_load_mean_counterexample :
    MAX_PLAYOUTS < bigTree.root.data.u.playouts
    ∧ (Tree.load freshC4 (Tree.save bigTree 0)).root.data.u.playouts = MAX_PLAYOUTS
    ∧ (Tree.load freshC4 (Tree.save bigTree 0)).root.data.u.wins = 1
    ∧ ¬(((Tree.load freshC4 (Tree.save bigTree 0)).root.data.u.wins : ℚ)
          / ((Tree.load freshC4 (Tree.save bigTree 0)).root.data.u.playouts : ℚ)
        = (bigTree.root.data.u.wins : ℚ) / (bigTree.root.data.u.playouts : ℚ)) := by
  have hroot : (Tree.load freshC4 (Tree.save bigTree 0)).root
      = transform 0 bigTree.root := by
    have hsave : Tree.save bigTree 0
        = BookTok.mark true :: (bodyToks 0 bigTree.root ++ [BookTok.mark false]) := by
      simp [Tree.save, saveNode]
    rw [hsave, treeLoad_eq]
    rw [loadNode_bodyToks 0 bigTree.root _ _ (by simp)]
  have hval : (transform 0 bigTree.root).data.u = { playouts := 10000000, wins := 1 } := by
    rw [show bigTree.root = TNode.mk bigData [] from rfl, transform_mk]
    simp only [TNode.data_mk]
    decide
  rw [hroot]
  refine ⟨by decide, ?_, ?_, ?_⟩
  · rw [hval]
    decide
  · rw [hval]
  · rw [hval]
    show ¬((1 : ℚ) / ((10000000 : Int) : ℚ) = ((3 : Int) : ℚ) / ((20000000 : Int) : ℚ))
    norm_num

/-! ## tree_fix_symmetry / tree_promote_at (tree.c lines 439-551) -/

/-- Modelled from the spec: the board interface consumed by tree.c.
board.h is not among the given sources and the spec (section 1) treats
"board/move legality and coordinate algebra" as an external collaborator;
section 4.1 states that raster-order child creation over the playground
yields a coordinate-sorted sibling list, so the codec is modelled as the
x-major index c = x*size + y with pass = -1, which realizes exactly that
guarantee.  `size` stands for board_size(b). -/
structure Board where
  size : Int
  symmetry : SymRegion

/-- The virtual pass coordinate. -/
def passCoord : Int := -1

/-- Modelled from the spec: coord_xy_otf of board.h under the x-major
codec. -/
def coord_xy_otf (x y : Int) (b : Board) : Int :=
  x * b.size + y

/-- Modelled from the spec: coord_x of board.h under the x-major codec.
All coordinates in use are non-negative, where Euclidean and C division
agree. -/
def coord_x (c : Int) (b : Board) : Int :=
  c / b.size

/-- Modelled from the spec: coord_y of board.h under the x-major codec. -/
def coord_y (c : Int) (b : Board) : Int :=
  c % b.size

/-- `flip_coord` (tree.c lines 439-454): transpose first when flipping
diagonally, then mirror horizontally and vertically. -/
def flip_coord (b : Board) (c : Int) (flip_horiz flip_vert flip_diag : Bool) : Int :=
  let x0 := coord_x c b
  let y0 := coord_y c b
  let x1 := if flip_diag then y0 else x0
  let y1 := if flip_diag then x0 else y0
  let x2 := if flip_horiz then b.size - 1 - x1 else x1
  let y2 := if flip_vert then b.size - 1 - y1 else y1
  coord_xy_otf x2 y2 b

theorem flip_coord_id (b : Board) (c : Int) : flip_coord b c false false false = c := by
  simp only [flip_coord, coord_xy_otf, coord_x, coord_y, if_neg Bool.false_ne_true,
    Bool.false_eq_true, if_false]
  rw [mul_comm]
  exact Int.ediv_add_emod c b.size

/-- The per-node coordinate rewrite of tree_fix_node_symmetry applied to
one payload: pass is left alone, every other coordinate is flipped. -/
def flipData (b : Board) (fh fv fd : Bool) (d : NodeData) : NodeData :=
  if d.coord = passCoord then d else { d with coord := flip_coord b d.coord fh fv fd }

/-- `tree_fix_node_symmetry` (lines 456-465): rewrite this node's
coordinate (unless pass) and recurse over the children. -/
def fixNodeSym (b : Board) (fh fv fd : Bool) : TNode → TNode
  | .mk d cs =>
    TNode.mk (flipData b fh fv fd d) (cs.attach.map (fun c => fixNodeSym b fh fv fd c.1))
decreasing_by
  have := List.sizeOf_lt_of_mem c.2
  simp
  omega

theorem fixNodeSym_mk (b : Board) (fh fv fd : Bool) (d : NodeData) (cs : List TNode) :
    fixNodeSym b fh fv fd (TNode.mk d cs)
      = TNode.mk (flipData b fh fv fd d) (cs.map (fixNodeSym b fh fv fd)) := by
  rw [fixNodeSym]
  rw [attach_map_sub cs (fun x => fixNodeSym b fh fv fd x)]

/-- The flip decision of tree_fix_symmetry (lines 467-502): mirror
horizontally/vertically when the played point lies outside the canonical
playground, and transpose when the diagonal test asks for it. -/
def fixFlips (t : Tree) (b : Board) (c : Int) : Bool × Bool × Bool :=
  let s := t.rootSymmetry
  let cx := coord_x c b
  let cy := coord_y c b
  let fh : Bool := decide (cx < s.x1 ∨ s.x2 < cx)
  let fv : Bool := decide (cy < s.y1 ∨ s.y2 < cy)
  let fd : Bool :=
    if s.d then
      let x := if (s.isDiagDown ^^ fh) ^^ fv then b.size - 1 - cx else cx
      if fv then decide (x < cy) else decide (cy < x)
    else false
  (fh, fv, fd)

/-- The root produced by tree_fix_symmetry: unchanged for a pass move or
when no flip is required, otherwise the whole tree of coordinates is
rewritten. -/
def fixRootSym (t : Tree) (b : Board) (c : Int) : TNode :=
  if c = passCoord then t.root
  else if (fixFlips t b c).1 ∨ (fixFlips t b c).2.1 ∨ (fixFlips t b c).2.2 then
    fixNodeSym b (fixFlips t b c).1 (fixFlips t b c).2.1 (fixFlips t b c).2.2 t.root
  else t.root

/-- `tree_fix_symmetry`: only node coordinates are touched; the root
metadata and the node statistics are untouched. -/
def treeFixSymmetry (t : Tree) (b : Board) (c : Int) : Tree :=
  { t with root := fixRootSym t b c }

/-- Modelled from the spec: board_symmetry_update (outside the given
sources; spec section 4.2 "update the symmetry region to reflect the new
root's position").  Its value is irrelevant to the claims settled here,
which exercise only the not-found path of tree_promote_at; it is modelled
as the full-board region (no residual symmetry). -/
def boardSymmetryUpdate (b : Board) (sym : SymRegion) (c : Int) : SymRegion :=
  { x1 := 0, y1 := 0, x2 := b.size - 1, y2 := b.size - 1
    d := false, isDiagDown := sym.isDiagDown }

/-- `tree_promote_node` (lines 528-537): the promoted child becomes the
root, the root color flips, the symmetry region is recomputed.  The
deallocation of the remaining siblings is memory management with no
observable effect on the resulting tree value. -/
def treePromoteNode (t : Tree) (b : Board) (n : TNode) : Tree :=
  { root := n
    rootColorWhite := !t.rootColorWhite
    rootSymmetry := boardSymmetryUpdate b t.rootSymmetry n.data.coord
    maxDepth := t.maxDepth }

/-- `tree_promote_at` (lines 539-551): fix the symmetry first, then scan
the root children for the coordinate; promote on a hit, report failure
otherwise. -/
def treePromoteAt (t : Tree) (b : Board) (c : Int) : Bool × Tree :=
  let t2 := treeFixSymmetry t b c
  match t2.root.children.find? (fun ni => ni.data.coord == c) with
  | some ni => (true, treePromoteNode t2 b ni)
  | none => (false, t2)

theorem subnodes_fixNodeSym (b : Board) (fh fv fd : Bool) :
    ∀ n : TNode, (fixNodeSym b fh fv fd n).subnodes.map TNode.data
      = n.subnodes.map (fun m => flipData b fh fv fd m.data) := by
  apply TNode.ind
  intro d cs ih
  rw [fixNodeSym_mk, TNode.subnodes_mk, TNode.subnodes_mk]
  simp only [List.map_cons, TNode.data_mk, List.map_map, List.map_flatten]
  congr 1
  congr 1
  apply List.map_congr_left
  intro c hc
  simpa using ih c hc

theorem flipData_id (b : Board) (d : NodeData) :
    flipData b false false false d = d := by
  rw [flipData]
  split
  · rfl
  · rw [flip_coord_id]

/-- C5 amended: when no root child matches the requested coordinate after
the symmetry fix-up, tree_promote_at reports "not found" and performs no
promotion: root color, root symmetry and max depth are untouched, the
node structure and all statistics are untouched, and the only possible
change is the coordinate rewrite already applied by tree_fix_symmetry
(all coordinates mapped by one common flip, pass left alone); for a pass
coordinate the tree is returned entirely unchanged. -/
theorem tree_promote_at_not_found (t : Tree) (b : Board) (c : Int)
    (h : ∀ ni ∈ (treeFixSymmetry t b c).root.children, ni.data.coord ≠ c) :
    (treePromoteAt t b c).1 = false
    ∧ (treePromoteAt t b c).2 = treeFixSymmetry t b c
    ∧ (treeFixSymmetry t b c).rootColorWhite = t.rootColorWhite
    ∧ (treeFixSymmetry t b c).rootSymmetry = t.rootSymmetry
    ∧ (treeFixSymmetry t b c).maxDepth = t.maxDepth
    ∧ (∃ fh fv fd : Bool, (treeFixSymmetry t b c).root.subnodes.map TNode.data
         = t.root.subnodes.map (fun m => flipData b fh fv fd m.data))
    ∧ (c = passCoord → treeFixSymmetry t b c = t) := by
  have hnone : (treeFixSymmetry t b c).root.children.find?
      (fun ni => ni.data.coord == c) = none := by
    rw [List.find?_eq_none]
    intro x hx
    simpa using h x hx
  have hpa : treePromoteAt t b c = (false, treeFixSymmetry t b c) := by
    rw [treePromoteAt]
    rw [hnone]
  refine ⟨by rw [hpa], by rw [hpa], rfl, rfl, rfl, ?_, ?_⟩
  · show ∃ fh fv fd : Bool, (fixRootSym t b c).subnodes.map TNode.data
      = t.root.subnodes.map (fun m => flipData b fh fv fd m.data)
    rw [fixRootSym]
    have hid : t.root.subnodes.map TNode.data
        = t.root.subnodes.map (fun m => flipData b false false false m.data) := by
      apply List.map_congr_left
      intro m _
      rw [flipData_id]
    split
    · exact ⟨false, false, false, hid⟩
    · split
      · exact ⟨(fixFlips t b c).1, (fixFlips t b c).2.1, (fixFlips t b c).2.2,
          subnodes_fixNodeSym b (fixFlips t b c).1 (fixFlips t b c).2.1
            (fixFlips t b c).2.2 t.root⟩
      · exact ⟨false, false, false, hid⟩
  · intro hc
    show { t with root := fixRootSym t b c } = t
    rw [fixRootSym, if_pos hc]

/-- The C5 counterexample configuration: a 5x5 board, canonical playground
restricted to columns 0-2, one root child at (1,1) (coordinate 6), and a
promotion request at (4,0) (coordinate 20), which lies outside the
playground and therefore triggers a horizontal flip before the child scan
fails. -/
def bC5 : Board :=
  { size := 5
    symmetry := { x1 := 0, y1 := 0, x2 := 2, y2 := 4, d := false, isDiagDown := false } }

def tC5 : Tree :=
  { root := TNode.mk dataB [TNode.mk dataA []]
    rootColorWhite := true
    rootSymmetry := { x1 := 0, y1 := 0, x2 := 2, y2 := 4, d := false, isDiagDown := false }
    maxDepth := 1 }

/-- C5 counterexample: the promotion at coordinate 20 returns "not found",
yet the tree does NOT remain unchanged: the sole root child's coordinate
has been rewritten from 6 (point (1,1)) to 16 (point (3,1)) by the
horizontal flip of tree_fix_symmetry. -/
theorem tree_promote_at_counterexample :
    (treePromoteAt tC5 bC5 20).1 = false
    ∧ tC5.root.children.map (fun n => n.data.coord) = [6]
    ∧ (treePromoteAt tC5 bC5 20).2.root.children.map (fun n => n.data.coord) = [16] := by
  have hflips : fixFlips tC5 bC5 20 = (true, false, false) := by
    rw [fixFlips]
    norm_num [tC5, bC5, coord_x, coord_y]
  have hfix : fixRootSym tC5 bC5 20 = fixNodeSym bC5 true false false tC5.root := by
    rw [fixRootSym, if_neg (by norm_num [passCoord]), hflips]
    norm_num
  have hroot : fixNodeSym bC5 true false false tC5.root
      = TNode.mk (flipData bC5 true false false dataB)
          [TNode.mk (flipData bC5 true false false dataA) []] := by
    rw [show tC5.root = TNode.mk dataB [TNode.mk dataA []] from rfl]
    rw [fixNodeSym_mk]
    simp only [List.map_cons, List.map_nil]
    rw [fixNodeSym_mk]
    simp only [List.map_nil]
  have hcoordA : (flipData bC5 true false false dataA).coord = 16 := by
    rw [flipData]
    norm_num [dataA, passCoord, flip_coord, coord_x, coord_y, coord_xy_otf, bC5]
  have hcoordB : flipData bC5 true false false dataB = dataB := by
    rw [flipData]
    rw [if_pos (by norm_num [dataB, passCoord])]
  have hfind : (treeFixSymmetry tC5 bC5 20).root.children.find?
      (fun ni => ni.data.coord == (20 : Int)) = none := by
    show (fixRootSym tC5 bC5 20).children.find? (fun ni => ni.data.coord == (20 : Int)) = none
    rw [hfix, hroot]
    simp only [TNode.children_mk]
    rw [List.find?_eq_none]
    intro x hx
    simp only [List.mem_singleton] at hx
    subst hx
    simp [hcoordA]
  have hpa : treePromoteAt tC5 bC5 20 = (false, treeFixSymmetry tC5 bC5 20) := by
    rw [treePromoteAt]
    rw [hfind]
  refine ⟨by rw [hpa], by decide, ?_⟩
  rw [hpa]
  show (fixRootSym tC5 bC5 20).children.map (fun n => n.data.coord) = [16]
  rw [hfix, hroot]
  simp [hcoordA]

/-- Witness for the amended C5 theorem at the counterexample input, where
the not-found hypothesis holds (the flipped child carries coordinate 16,
not 20). -/
theorem tree_promote_at_not_found_witness :
    (treePromoteAt tC5 bC5 20).1 = false
    ∧ (treePromoteAt tC5 bC5 20).2 = treeFixSymmetry tC5 bC5 20 := by
  have h := tree_promote_at_not_found tC5 bC5 20
  have hcoordA2 : (flipData bC5 true false false dataA).coord = 16 := by
    rw [flipData]
    norm_num [dataA, passCoord, flip_coord, coord_x, coord_y, coord_xy_otf, bC5]
  have hchild : ∀ ni ∈ (treeFixSymmetry tC5 bC5 20).root.children, ni.data.coord ≠ 20 := by
    have hflips : fixFlips tC5 bC5 20 = (true, false, false) := by
      rw [fixFlips]
      norm_num [tC5, bC5, coord_x, coord_y]
    have hfix : fixRootSym tC5 bC5 20 = fixNodeSym bC5 true false false tC5.root := by
      rw [fixRootSym, if_neg (by norm_num [passCoord]), hflips]
      norm_num
    show ∀ ni ∈ (fixRootSym tC5 bC5 20).children, ni.data.coord ≠ 20
    rw [hfix]
    rw [show tC5.root = TNode.mk dataB [TNode.mk dataA []] from rfl, fixNodeSym_mk]
    simp only [List.map_cons, List.map_nil, TNode.children_mk]
    intro ni hni
    simp only [List.mem_singleton] at hni
    subst hni
    rw [fixNodeSym_mk]
    simp [hcoordA2]
  exact ⟨(h hchild).1, (h hchild).2.1⟩

/-! ## tree_expand_node (tree.c lines 359-436) -/

/-- The inclusive integer range lo..hi (empty when hi < lo). -/
def intRange (lo hi : Int) : List Int :=
  (List.range (hi + 1 - lo).toNat).map (fun (k : Nat) => lo + (k : Int))

theorem mem_intRange {lo hi x : Int} : x ∈ intRange lo hi ↔ lo ≤ x ∧ x ≤ hi := by
  simp only [intRange, List.mem_map, List.mem_range]
  constructor
  · rintro ⟨k, hk, rfl⟩
    omega
  · intro hx
    exact ⟨(x - lo).toNat, by omega, by omega⟩

theorem map_of_eq_id {a : Type} (f : a → a) (h : ∀ x, f x = x) :
    ∀ l : List a, l.map f = l := by
  intro l
  induction l with
  | nil => rfl
  | cons x t ih => simp [h x, ih]

theorem intRange_pairwise (lo hi : Int) : List.Pairwise (· < ·) (intRange lo hi) := by
  rw [intRange, List.pairwise_map]
  apply List.Pairwise.imp ?_ (List.pairwise_lt_range _)
  intro a b hab
  omega

/-- The raster scan of tree_expand_node (lines 408-435): columns x1..x2
outer, rows y1..y2 inner; inside a folded playground (symmetry.d) points
above the diagonal are dropped (lines 410-417). -/
def playgroundCoords (b : Board) : List Int :=
  ((intRange b.symmetry.x1 b.symmetry.x2).map (fun i =>
    ((intRange b.symmetry.y1 b.symmetry.y2).filter (fun j =>
      !(b.symmetry.d
        && decide (j < (if b.symmetry.isDiagDown then b.size - 1 - i else i))))).map
      (fun j => coord_xy_otf i j b))).flatten

/-- `tree_expand_node`: the sibling list it hangs below the expanded leaf,
namely the pass child first (lines 390-398), then one node per playground
point that passes the consider mask, in raster order (lines 408-435).
The consider mask (occupancy, radar locality, board_is_valid_move) and the
prior map (uct_prior) are the external oracles of spec section 6, passed
as functions; a fresh node carries zeroed statistics apart from the
preloaded prior; only the derived cached value (omitted, out of spec
scope) depends on the prior weight. -/
def tree_expand_node (b : Board) (node : TNode) (consider : Int → Bool)
    (priorMap : Int → MoveStats) : List TNode :=
  TNode.mk
    { depth := node.data.depth + 1, coord := passCoord, u := msZero
      prior := priorMap passCoord, amaf := msZero, pu := msZero, pamaf := msZero
      hints := 0 } []
  :: ((playgroundCoords b).filter (fun c => consider c)).map (fun c =>
       TNode.mk
         { depth := node.data.depth + 1, coord := c, u := msZero
           prior := priorMap c, amaf := msZero, pu := msZero, pamaf := msZero
           hints := 0 } [])

theorem mem_playgroundCoords {b : Board} {c : Int} (h : c ∈ playgroundCoords b) :
    ∃ i j, b.symmetry.x1 ≤ i ∧ i ≤ b.symmetry.x2
      ∧ b.symmetry.y1 ≤ j ∧ j ≤ b.symmetry.y2 ∧ c = i * b.size + j := by
  simp only [playgroundCoords, List.mem_flatten, List.mem_map] at h
  obtain ⟨l, ⟨i, hi, rfl⟩, hc⟩ := h
  obtain ⟨j, hj, rfl⟩ := List.mem_map.mp hc
  have hj2 := List.mem_filter.mp hj
  have hib := mem_intRange.mp hi
  have hjb := mem_intRange.mp hj2.1
  exact ⟨i, j, hib.1, hib.2, hjb.1, hjb.2, rfl⟩

theorem playgroundCoords_pairwise (b : Board)
    (hy1 : 0 ≤ b.symmetry.y1) (hy2 : b.symmetry.y2 < b.size) :
    List.Pairwise (· < ·) (playgroundCoords b) := by
  rw [playgroundCoords, List.pairwise_flatten]
  constructor
  · intro l hl
    obtain ⟨i, _, rfl⟩ := List.mem_map.mp hl
    rw [List.pairwise_map]
    apply List.Pairwise.imp ?_
      (List.Pairwise.sublist (List.filter_sublist _) (intRange_pairwise _ _))
    intro j1 j2 hj
    simp only [coord_xy_otf]
    omega
  · rw [List.pairwise_map]
    apply List.Pairwise.imp ?_ (intRange_pairwise _ _)
    intro i1 i2 hi x hx y hy
    obtain ⟨j1, hj1, rfl⟩ := List.mem_map.mp hx
    obtain ⟨j2, hj2, rfl⟩ := List.mem_map.mp hy
    have hj1b := mem_intRange.mp (List.mem_filter.mp hj1).1
    have hj2b := mem_intRange.mp (List.mem_filter.mp hj2).1
    simp only [coord_xy_otf]
    have hsz : (i1 + 1) * b.size ≤ i2 * b.size := by
      apply mul_le_mul_of_nonneg_right (by omega) (by omega)
    have hexp : (i1 + 1) * b.size = i1 * b.size + b.size := by ring
    omega

/-- C6: the sibling list produced by tree_expand_node - the pass child
followed by the playground children generated in the raster order of the
double loop - is sorted in strictly increasing coordinate order, the
ordering invariant tree_node_merge requires on both sides.  The
hypotheses state that the playground lies on the board (coordinates
non-negative, row indices below the row stride). -/
theorem tree_expand_node_sorted (b : Board) (node : TNode) (consider : Int → Bool)
    (priorMap : Int → MoveStats) (hx1 : 0 ≤ b.symmetry.x1) (hy1 : 0 ≤ b.symmetry.y1)
    (hy2 : b.symmetry.y2 < b.size) :
    ((tree_expand_node b node consider priorMap).map (fun n => n.data.coord)).head?
        = some passCoord
    ∧ List.Sorted (· < ·)
        ((tree_expand_node b node consider priorMap).map (fun n => n.data.coord)) := by
  have hlist : (tree_expand_node b node consider priorMap).map (fun n => n.data.coord)
      = passCoord :: (playgroundCoords b).filter (fun c => consider c) := by
    rw [tree_expand_node]
    simp only [List.map_cons, List.map_map, TNode.data_mk]
    congr 1
    exact map_of_eq_id _ (fun c => rfl) _
  rw [hlist]
  refine ⟨rfl, ?_⟩
  rw [List.sorted_cons]
  constructor
  · intro x hx
    have hmem := List.mem_filter.mp hx
    obtain ⟨i, j, hi1, _, hj1, hj2, rfl⟩ := mem_playgroundCoords hmem.1
    have hnn : 0 ≤ i * b.size := mul_nonneg (by omega) (by omega)
    show passCoord < i * b.size + j
    rw [passCoord]
    omega
  · exact List.Pairwise.sublist (List.filter_sublist _)
      (playgroundCoords_pairwise b hy1 hy2)

/-- A concrete expansion for the C6 witness: full 3x3 playground, all
points considered. -/
def bC6 : Board :=
  { size := 3
    symmetry := { x1 := 0, y1 := 0, x2 := 2, y2 := 2, d := false, isDiagDown := false } }

/-- Witness for C6 on the 3x3 board: the nine playground coordinates
follow the pass child in increasing order. -/
theorem tree_expand_node_sorted_witness :
    ((tree_expand_node bC6 (TNode.mk dataB []) (fun _ => true)
        (fun _ => msZero)).map (fun n => n.data.coord)).head? = some passCoord
    ∧ List.Sorted (· < ·)
        ((tree_expand_node bC6 (TNode.mk dataB []) (fun _ => true)
            (fun _ => msZero)).map (fun n => n.data.coord)) :=
  tree_expand_node_sorted bC6 (TNode.mk dataB []) (fun _ => true) (fun _ => msZero)
    (by decide) (by decide) (by decide)

/-! ## distributed.c: select_best_move (lines 150-195) -/

/-- One candidate-move line of a genmoves reply,
"coord playouts value amaf_playouts amaf_value", in parsed form.  The
lexical framing of the text protocol is an external concern (spec section
1), so replies enter the model tokenized: the coordinate is the value of
the external str2coord codec, the playout counts are the non-negative
counts of the reply grammar, and the float values are taken at their
exact rational value. -/
structure GLine where
  coord : Int
  playouts : Nat
  value : ℚ
  amafPlayouts : Nat
  amafValue : ℚ
  deriving DecidableEq

/-- The parsed reply header "=id played total_playouts threads
keep_looking". -/
structure GHeader where
  gid : Int
  played : Int
  playouts : Int
  threads : Int
  keep : Int
  deriving DecidableEq

/-- One collected worker reply: the header if the first sscanf matched
(when it does not, the `continue` at line 169 skips the whole reply,
coordinate lines included), and the maximal prefix of parseable
coordinate lines (the while loop at lines 179-191 stops at the first
line that does not parse, such as the terminating blank line). -/
structure GReply where
  header : Option GHeader
  lines : List GLine
  deriving DecidableEq

/-- struct move_stats as distributed.c uses it: playouts plus the running
value. -/
structure MStats where
  playouts : Nat
  value : ℚ
  deriving DecidableEq

/-- Modelled from the spec: stats_add_result of stats.h (not among the
given sources).  Spec section 3: a StatRecord accumulates the playout
count and the value; folding `playouts` trials of average outcome `value`
into the accumulator keeps `value` the running weighted mean.  A zero
total leaves the value in place (the C float division by zero never
matters because such a record is never read as a best move). -/
def stats_add_result (s : MStats) (value : ℚ) (playouts : Nat) : MStats :=
  if s.playouts + playouts = 0 then { playouts := 0, value := s.value }
  else
    { playouts := s.playouts + playouts
      value := s.value + (value - s.value) * playouts / (s.playouts + playouts) }

theorem stats_add_result_playouts (s : MStats) (v : ℚ) (p : Nat) :
    (stats_add_result s v p).playouts = s.playouts + p := by
  rw [stats_add_result]
  split
  · simp
    omega
  · rfl

/-- struct move_stats2: the u and amaf channels of one candidate. -/
structure MStats2 where
  u : MStats
  amaf : MStats

/-- The state of the select_best_move scan: the per-coordinate statistics
table, the running best move and its playout count (initialized to the
pass coordinate and -1), and the header aggregates. -/
structure SelState where
  stats : Int → MStats2
  best : Int
  bestPlayouts : Int
  played : Int
  playouts : Int
  threads : Int
  keep : Int

def initState : SelState :=
  { stats := fun _ => ⟨⟨0, 0⟩, ⟨0, 0⟩⟩
    best := passCoord
    bestPlayouts := -1
    played := 0, playouts := 0, threads := 0, keep := 0 }

def updateStats (f : Int → MStats2) (c : Int) (v : MStats2) : Int → MStats2 :=
  fun x => if x = c then v else f x

/-- One coordinate line (lines 179-191): fold the line into the stats
table with stats_add_result on both channels, then take the coordinate as
the new best when its accumulated u-playout count strictly exceeds the
running best count. -/
def processLine (st : SelState) (ln : GLine) : SelState :=
  if st.bestPlayouts
      < ((stats_add_result (st.stats ln.coord).u ln.value ln.playouts).playouts : Int) then
    { st with
      stats := updateStats st.stats ln.coord
        ⟨stats_add_result (st.stats ln.coord).u ln.value ln.playouts,
         stats_add_result (st.stats ln.coord).amaf ln.amafValue ln.amafPlayouts⟩
      best := ln.coord
      bestPlayouts :=
        ((stats_add_result (st.stats ln.coord).u ln.value ln.playouts).playouts : Int) }
  else
    { st with
      stats := updateStats st.stats ln.coord
        ⟨stats_add_result (st.stats ln.coord).u ln.value ln.playouts,
         stats_add_result (st.stats ln.coord).amaf ln.amafValue ln.amafPlayouts⟩ }

/-- One reply (lines 166-192): a reply whose header did not parse is
skipped entirely; otherwise the header aggregates are summed and the
coordinate lines are folded in order. -/
def processReply (st : SelState) (r : GReply) : SelState :=
  match r.header with
  | none => st
  | some h =>
    r.lines.foldl processLine
      { st with
        played := st.played + h.played
        playouts := st.playouts + h.playouts
        threads := st.threads + h.threads
        keep := st.keep + h.keep }

/-- The outputs of select_best_move. -/
structure SelResult where
  best : Int
  played : Int
  totalPlayouts : Int
  totalThreads : Int
  keepLooking : Bool
  stats : Int → MStats2

/-- `select_best_move` (lines 150-195): zero the statistics table, fold
every collected reply, then derive the keep-looking vote
`keep > reply_count / 2` (C int division). -/
def select_best_move (replies : List GReply) : SelResult :=
  { best := (replies.foldl processReply initState).best
    played := (replies.foldl processReply initState).played
    totalPlayouts := (replies.foldl processReply initState).playouts
    totalThreads := (replies.foldl processReply initState).threads
    keepLooking :=
      decide ((replies.length : Int) / 2 < (replies.foldl processReply initState).keep)
    stats := (replies.foldl processReply initState).stats }

/-- The scan invariant: the best coordinate carries the maximal
accumulated u-playout count, and the best counter mirrors the table
except in the virgin state. -/
def SelInv (st : SelState) : Prop :=
  (∀ c, (st.stats c).u.playouts ≤ (st.stats st.best).u.playouts)
  ∧ (st.bestPlayouts = ((st.stats st.best).u.playouts : Int)
     ∨ (st.bestPlayouts = -1 ∧ ∀ c, (st.stats c).u.playouts = 0))

theorem updateStats_same (f : Int → MStats2) (c : Int) (v : MStats2) :
    updateStats f c v c = v := by
  simp [updateStats]

theorem updateStats_other (f : Int → MStats2) {x c : Int} (h : ¬x = c) (v : MStats2) :
    updateStats f c v x = f x := by
  simp [updateStats, h]

theorem selInv_processLine {st : SelState} (h : SelInv st) (ln : GLine) :
    SelInv (processLine st ln) := by
  obtain ⟨stats, best, bestP, pl, po, th, ke⟩ := st
  obtain ⟨hmax, hbp⟩ := h
  simp only [SelInv] at *
  have hup : (stats_add_result (stats ln.coord).u ln.value ln.playouts).playouts
      = (stats ln.coord).u.playouts + ln.playouts := stats_add_result_playouts _ _ _
  rw [processLine]
  by_cases hcond : bestP
      < ((stats_add_result (stats ln.coord).u ln.value ln.playouts).playouts : Int)
  · rw [if_pos hcond]
    constructor
    · intro c
      simp only [updateStats_same]
      by_cases hc : c = ln.coord
      · rw [hc, updateStats_same]
      · rw [updateStats_other _ hc]
        rcases hbp with hb | ⟨hm1, hz⟩
        · have h1 := hmax c
          omega
        · have h2 := hz c
          omega
    · left
      simp only [updateStats_same]
  · rw [if_neg hcond]
    rcases hbp with hb | ⟨hm1, hz⟩
    · by_cases hbc : best = ln.coord
      · have hb2 : bestP = ((stats ln.coord).u.playouts : Int) := by
          rw [← hbc]
          exact hb
        have heq : (stats_add_result (stats ln.coord).u ln.value ln.playouts).playouts
            = (stats ln.coord).u.playouts := by
          omega
        constructor
        · intro c
          simp only [hbc, updateStats_same]
          by_cases hc : c = ln.coord
          · rw [hc, updateStats_same]
          · rw [updateStats_other _ hc]
            have h3 : (stats c).u.playouts ≤ (stats ln.coord).u.playouts := by
              rw [← hbc]
              exact hmax c
            omega
        · left
          simp only [hbc, updateStats_same]
          omega
      · constructor
        · intro c
          simp only [updateStats_other _ hbc]
          by_cases hc : c = ln.coord
          · rw [hc, updateStats_same]
            dsimp only
            omega
          · rw [updateStats_other _ hc]
            exact hmax c
        · left
          simp only [updateStats_other _ hbc]
          exact hb
    · exfalso
      omega

theorem selInv_foldLines {st : SelState} (h : SelInv st) (lines : List GLine) :
    SelInv (lines.foldl processLine st) := by
  induction lines generalizing st with
  | nil => exact h
  | cons a t ih => exact ih (selInv_processLine h a)

theorem selInv_processReply {st : SelState} (h : SelInv st) (r : GReply) :
    SelInv (processReply st r) := by
  obtain ⟨hh, ll⟩ := r
  cases hh with
  | none =>
    simp only [processReply]
    exact h
  | some hd =>
    simp only [processReply]
    refine selInv_foldLines ?_ ll
    obtain ⟨hmax, hbp⟩ := h
    exact ⟨hmax, hbp⟩

theorem selInv_fold (replies : List GReply) :
    SelInv (replies.foldl processReply initState) := by
  have hinit : SelInv initState := by
    constructor
    · intro c
      exact le_refl _
    · right
      exact ⟨rfl, fun c => rfl⟩
  have key : ∀ (rs : List GReply) (st : SelState), SelInv st →
      SelInv (rs.foldl processReply st) := by
    intro rs
    induction rs with
    | nil => intro st h; exact h
    | cons a t ih => intro st h; exact ih _ (selInv_processReply h a)
  exact key replies initState hinit

/-- The external str2coord codec values for the two textual coordinates of
the C2 sample reply; the codec is external (spec section 1), only
distinctness and being non-pass matter. -/
def coordC3 : Int := 44

def coordD4 : Int := 66

/-- The reply "=7 100 500 4 1\nC3 50 0.6 10 0.55\nD4 80 0.4 5 0.3\n\n"
in tokenized form. -/
def replyC2 : GReply :=
  { header := some { gid := 7, played := 100, playouts := 500, threads := 4, keep := 1 }
    lines :=
      [ { coord := coordC3, playouts := 50, value := 3/5, amafPlayouts := 10
          amafValue := 11/20 }
      , { coord := coordD4, playouts := 80, value := 2/5, amafPlayouts := 5
          amafValue := 3/10 } ] }

/-- C2: select_best_move returns a coordinate whose combined (summed
across all replies) raw u-playout count is maximal over every coordinate,
and on the single sample reply it returns D4 (80 > 50) with played=100,
total_playouts=500, total_threads=4 and keep_looking=true (vote 1 of 1). -/
theorem select_best_move_max :
    (∀ (replies : List GReply) (c : Int),
       ((select_best_move replies).stats c).u.playouts
         ≤ ((select_best_move replies).stats (select_best_move replies).best).u.playouts)
    ∧ (select_best_move [replyC2]).best = coordD4
    ∧ (select_best_move [replyC2]).played = 100
    ∧ (select_best_move [replyC2]).totalPlayouts = 500
    ∧ (select_best_move [replyC2]).totalThreads = 4
    ∧ (select_best_move [replyC2]).keepLooking = true := by
  refine ⟨?_, ?_, ?_, ?_, ?_, ?_⟩
  · intro replies c
    exact (selInv_fold replies).1 c
  · decide
  · decide
  · decide
  · decide
  · decide

/-! ## distributed.c: the keep-looking vote and the no-candidate case -/

/-- The headers of the replies whose first line parsed. -/
def headersOf (replies : List GReply) : List GHeader :=
  replies.filterMap GReply.header

/-- The number of collected replies voting to continue (header parsed and
keep flag 1). -/
def votesFor (replies : List GReply) : Nat :=
  ((headersOf replies).filter (fun h => h.keep == 1)).length

theorem foldLines_keep (st : SelState) (lines : List GLine) :
    (lines.foldl processLine st).keep = st.keep := by
  induction lines generalizing st with
  | nil => rfl
  | cons a t ih =>
    rw [List.foldl_cons, ih, processLine]
    split <;> rfl

theorem fold_keep (replies : List GReply) : ∀ st : SelState,
    (replies.foldl processReply st).keep
      = st.keep + ((headersOf replies).map GHeader.keep).sum := by
  induction replies with
  | nil =>
    intro st
    simp [headersOf]
  | cons r t ih =>
    intro st
    obtain ⟨hh, ll⟩ := r
    rw [List.foldl_cons]
    cases hh with
    | none =>
      simp only [processReply]
      rw [ih st]
      simp [headersOf]
    | some hd =>
      simp only [processReply]
      rw [ih _, foldLines_keep]
      simp only [headersOf, List.filterMap_cons]
      simp
      omega

theorem sum_keep_eq_votes (hs : List GHeader)
    (hk : ∀ h ∈ hs, h.keep = 0 ∨ h.keep = 1) :
    (hs.map GHeader.keep).sum = (((hs.filter (fun h => h.keep == 1)).length : Nat) : Int) := by
  induction hs with
  | nil => simp
  | cons a t ih =>
    have ha := hk a (List.mem_cons_self a t)
    have ht := ih (fun x hx => hk x (List.mem_cons_of_mem _ hx))
    rcases ha with h0 | h1
    · have hne : (a.keep == 1) = false := by
        simp [h0]
      simp only [List.map_cons, List.sum_cons, List.filter_cons, hne]
      rw [ht]
      simp [h0]
    · have heq : (a.keep == 1) = true := by
        simp [h1]
      simp only [List.map_cons, List.sum_cons, List.filter_cons, heq]
      rw [ht]
      simp [h1]
      omega

/-- C8: with at least one parseable header, keep_looking is true iff the
continue votes form a strict majority of ALL collected replies
(keep > reply_count / 2 in C int arithmetic is exactly 2*votes >
reply_count, so at an even count an exact half vote yields false). -/
theorem select_keep_strict_majority (replies : List GReply)
    (hex : headersOf replies ≠ [])
    (hk : ∀ h ∈ headersOf replies, h.keep = 0 ∨ h.keep = 1) :
    ((select_best_move replies).keepLooking = true
      ↔ 2 * votesFor replies > replies.length) := by
  have hkeep : (replies.foldl processReply initState).keep
      = ((headersOf replies).map GHeader.keep).sum := by
    rw [fold_keep]
    simp [initState]
  have hv := sum_keep_eq_votes (headersOf replies) hk
  have hvf : votesFor replies = ((headersOf replies).filter (fun h => h.keep == 1)).length :=
    rfl
  show (decide ((replies.length : Int) / 2
      < (replies.foldl processReply initState).keep) = true) ↔ _
  rw [decide_eq_true_iff, hkeep, hv, hvf]
  constructor
  · intro hlt
    omega
  · intro hgt
    omega

/-- Two headed, line-free replies: one continue vote out of two. -/
def replyK1 : GReply :=
  { header := some { gid := 1, played := 10, playouts := 20, threads := 2, keep := 1 }
    lines := [] }

def replyK0 : GReply :=
  { header := some { gid := 2, played := 5, playouts := 8, threads := 1, keep := 0 }
    lines := [] }

/-- Witness for C8 at the even-count boundary: one continue vote out of
two collected replies is exactly half, and both sides of the equivalence
are false. -/
theorem select_keep_strict_majority_witness :
    ((select_best_move [replyK1, replyK0]).keepLooking = true
      ↔ 2 * votesFor [replyK1, replyK0] > ([replyK1, replyK0] : List GReply).length) :=
  select_keep_strict_majority [replyK1, replyK0] (by decide) (by decide)

theorem fold_noline (replies : List GReply) (hl : ∀ r ∈ replies, r.lines = []) :
    ∀ st : SelState,
    (replies.foldl processReply st).best = st.best
    ∧ (replies.foldl processReply st).played
        = st.played + ((headersOf replies).map GHeader.played).sum
    ∧ (replies.foldl processReply st).playouts
        = st.playouts + ((headersOf replies).map GHeader.playouts).sum
    ∧ (replies.foldl processReply st).threads
        = st.threads + ((headersOf replies).map GHeader.threads).sum := by
  induction replies with
  | nil =>
    intro st
    simp [headersOf]
  | cons r t ih =>
    intro st
    have hr : r.lines = [] := hl r (List.mem_cons_self r t)
    have ht := ih (fun x hx => hl x (List.mem_cons_of_mem _ hx))
    obtain ⟨hh, ll⟩ := r
    have hll : ll = [] := hr
    subst hll
    rw [List.foldl_cons]
    cases hh with
    | none =>
      simp only [processReply]
      obtain ⟨e1, e2, e3, e4⟩ := ht st
      refine ⟨e1, ?_, ?_, ?_⟩ <;> simp only [e2, e3, e4, headersOf, List.filterMap_cons]
    | some hd =>
      simp only [processReply, List.foldl_nil]
      obtain ⟨e1, e2, e3, e4⟩ := ht _
      refine ⟨e1, ?_, ?_, ?_⟩ <;>
        simp only [e2, e3, e4, headersOf, List.filterMap_cons] <;> simp <;> omega

/-- C10: when at least one header parses but no reply contributes any
parseable coordinate line, select_best_move returns the initialized pass
coordinate as best move, and the aggregates are the sums over the parsed
headers. -/
theorem select_best_move_no_lines (replies : List GReply)
    (hl : ∀ r ∈ replies, r.lines = [])
    (hex : headersOf replies ≠ []) :
    (select_best_move replies).best = passCoord
    ∧ (select_best_move replies).played = ((headersOf replies).map GHeader.played).sum
    ∧ (select_best_move replies).totalPlayouts
        = ((headersOf replies).map GHeader.playouts).sum
    ∧ (select_best_move replies).totalThreads
        = ((headersOf replies).map GHeader.threads).sum := by
  obtain ⟨e1, e2, e3, e4⟩ := fold_noline replies hl initState
  refine ⟨?_, ?_, ?_, ?_⟩
  · show (replies.foldl processReply initState).best = passCoord
    rw [e1]
    simp [initState]
  · show (replies.foldl processReply initState).played = _
    rw [e2]
    simp [initState]
  · show (replies.foldl processReply initState).playouts = _
    rw [e3]
    simp [initState]
  · show (replies.foldl processReply initState).threads = _
    rw [e4]
    simp [initState]

/-- Witness for C10 on the two headed, line-free replies. -/
theorem select_best_move_no_lines_witness :
    (select_best_move [replyK1, replyK0]).best = passCoord
    ∧ (select_best_move [replyK1, replyK0]).played
        = ((headersOf [replyK1, replyK0]).map GHeader.played).sum
    ∧ (select_best_move [replyK1, replyK0]).totalPlayouts
        = ((headersOf [replyK1, replyK0]).map GHeader.playouts).sum
    ∧ (select_best_move [replyK1, replyK0]).totalThreads
        = ((headersOf [replyK1, replyK0]).map GHeader.threads).sum :=
  select_best_move_no_lines [replyK1, replyK0] (by decide) (by decide)

/-! ## distributed.c: distributed_dead_group_list (lines 345-386) -/

/-- Modelled from the spec: the byte value tolower yields for an ASCII
character, as strcasecmp compares bytes (the C library functions are the
external platform interface).  Upper-case letters map to their lower-case
byte, everything else is the identity. -/
def caseFoldVal (c : Char) : Nat :=
  if 65 ≤ c.toNat ∧ c.toNat ≤ 90 then c.toNat + 32 else c.toNat

/-- The case-insensitive comparison key of a reply string. -/
def lowerKey (s : List Char) : List Nat :=
  s.map caseFoldVal

/-- The ordering `scmp` (strcasecmp on the two strings, lines 345-349)
induces: compare case-folded byte sequences lexicographically. -/
def caseLe (a b : List Char) : Prop :=
  lowerKey a ≤ lowerKey b

instance : DecidableRel caseLe :=
  fun a b => inferInstanceAs (Decidable (lowerKey a ≤ lowerKey b))

instance : IsTotal (List Char) caseLe :=
  ⟨fun a b => le_total (lowerKey a) (lowerKey b)⟩

instance : IsTrans (List Char) caseLe :=
  ⟨fun _ _ _ h1 h2 => le_trans h1 h2⟩

/-- The run scan of distributed_dead_group_list (lines 362-374) over the
sorted reply array: count runs of exactly equal (strcmp) neighbours,
remembering the index where the count first exceeded the best count.
Arguments: remaining replies, previous reply, index of the next reply,
current run count, best count, best index; returns (best index, best
count). -/
def scanBest : List (List Char) → List Char → Nat → Nat → Nat → Nat → (Nat × Nat)
  | [], _, _, _, bestCount, bestIdx => (bestIdx, bestCount)
  | s :: rest, prev, idx, count, bestCount, bestIdx =>
    let count2 := if s = prev then count + 1 else 1
    if bestCount < count2 then scanBest rest s (idx + 1) count2 count2 idx
    else scanBest rest s (idx + 1) count2 bestCount bestIdx

/-- The index of the most popular reply in the sorted array (best_reply,
initialized to 0 with best_count = count = 1). -/
def bestReply (l : List (List Char)) : Nat :=
  match l with
  | [] => 0
  | s0 :: rest => (scanBest rest s0 1 1 1 0).1

/-- strchr: the suffix of the string starting at the first occurrence of
the character, if any. -/
def suffixFrom (ch : Char) : List Char → Option (List Char)
  | [] => none
  | c :: rest => if c = ch then some (c :: rest) else suffixFrom ch rest

theorem suffixFrom_length {ch : Char} : ∀ {l m : List Char},
    suffixFrom ch l = some m → m.length ≤ l.length := by
  intro l
  induction l with
  | nil => intro m h; simp [suffixFrom] at h
  | cons c rest ih =>
    intro m h
    rw [suffixFrom] at h
    split at h
    · cases h
      exact le_refl _
    · have := ih h
      simp
      omega

/-- The token the external str2coord codec consumes at the head of a
line: the group is represented by this textual coordinate (the
coordinate algebra itself is external, spec section 1). -/
def coordToken (l : List Char) : List Char :=
  l.takeWhile (fun c => !(c = ' ' || c = '\n'))

/-- The group-collection loop of distributed_dead_group_list (lines
377-384), entered just past a delimiter (the skipped "id " space or a
newline): stop at end of string or at an immediate newline, otherwise
take the first token of the line as the dead group and jump past the next
newline.  The loop advances through the string, so string length is the
fuel that makes the recursion structural; deadGroups below supplies it. -/
def groupsAfter : Nat → List Char → List (List Char)
  | 0, _ => []
  | _, [] => []
  | fuel + 1, c :: rest =>
    if c = '\n' then []
    else
      coordToken (c :: rest) ::
        (match suffixFrom '\n' (c :: rest) with
         | none => []
         | some [] => []
         | some (_ :: rest2) => groupsAfter fuel rest2)

/-- The dead-group list extracted from one reply string: skip up to the
first space (after the "=id" acknowledgement), then collect the first
token of every line. -/
def deadGroups (reply : List Char) : List (List Char) :=
  match suffixFrom ' ' reply with
  | none => []
  | some [] => []
  | some (_ :: rest) => groupsAfter rest.length rest

/-- The reply selected by distributed_dead_group_list: sort the replies
with scmp (modelled as a stable insertion sort, one lawful outcome of
qsort with the strcasecmp comparator), then take the reply at the
best-run index. -/
def selectedReply (replies : List (List Char)) : List Char :=
  (List.insertionSort caseLe replies).getD (bestReply (List.insertionSort caseLe replies)) []

/-- `distributed_dead_group_list` (lines 351-386): the winning reply's
coordinate list, verbatim. -/
def distributed_dead_group_list (replies : List (List Char)) : List (List Char) :=
  deadGroups (selectedReply replies)

/-- Case variants of the reply "= bc" with newline: exactly textually
equal only to themselves, all case-insensitively equal. -/
def rLow : List Char := ['=', ' ', 'b', 'c', '\n']

def rUp : List Char := ['=', ' ', 'B', 'C', '\n']

def rMix : List Char := ['=', ' ', 'B', 'c', '\n']

/-- C9 counterexample: of the four collected replies, "= BC" occurs twice
(the most frequent exact text), but the case variants sort interleaved
as arrival order has them ("= bc", "= BC", "= Bc", "= BC" all compare
equal under strcasecmp), so every run has length 1 and the scan keeps
best_reply = 0; the selected reply "= bc" occurs only once, refuting the
claimed most-frequent-exact-match selection. -/
theorem dead_group_majority_counterexample :
    selectedReply [rLow, rUp, rMix, rUp] = rLow
    ∧ List.count rUp [rLow, rUp, rMix, rUp] = 2
    ∧ List.count (selectedReply [rLow, rUp, rMix, rUp]) [rLow, rUp, rMix, rUp] = 1
    ∧ distributed_dead_group_list [rLow, rUp, rMix, rUp] = [['b', 'c']] := by
  refine ⟨by decide, by decide, by decide, by decide⟩

/-- The maximal multiplicity of any reply in the list. -/
def maxCount (l : List (List Char)) : Nat :=
  (l.map (fun v => l.count v)).foldr max 0

/-- The first reply in list order whose multiplicity is maximal. -/
def firstMaxVal (l : List (List Char)) : List Char :=
  (l.find? (fun v => l.count v == maxCount l)).getD []

/-- A list whose equal elements stand adjacent: a sequence of constant
blocks whose values are absent from the remainder.  A case-insensitively
sorted reply array in which distinct replies never compare
case-insensitively equal has this shape. -/
inductive Blocky : List (List Char) → Prop where
  | nil : Blocky []
  | block (v : List Char) (k : Nat) (rest : List (List Char)) :
      0 < k → v ∉ rest → Blocky rest → Blocky (List.replicate k v ++ rest)

theorem count_replicate_append_self {v : List Char} {rest : List (List Char)}
    (h : v ∉ rest) (k : Nat) :
    List.count v (List.replicate k v ++ rest) = k := by
  rw [List.count_append, List.count_replicate]
  simp [List.count_eq_zero.mpr h]

theorem count_replicate_append_other {v w : List Char} (hw : ¬w = v)
    (k : Nat) (rest : List (List Char)) :
    List.count w (List.replicate k v ++ rest) = List.count w rest := by
  rw [List.count_append, List.count_replicate]
  have : (v == w) = false := by
    simp
    intro he
    exact hw he.symm
  rw [this]
  simp

theorem le_foldr_max (L : List Nat) : ∀ x ∈ L, x ≤ L.foldr max 0 := by
  induction L with
  | nil =>
    intro x hx
    simp at hx
  | cons a t ih =>
    intro x hx
    rw [List.foldr_cons]
    rcases List.mem_cons.mp hx with rfl | hx2
    · exact le_max_left _ _
    · exact le_trans (ih x hx2) (le_max_right _ _)

theorem foldr_max_mem_or_zero (L : List Nat) : L.foldr max 0 ∈ L ∨ L.foldr max 0 = 0 := by
  induction L with
  | nil => right; rfl
  | cons a t ih =>
    rw [List.foldr_cons]
    by_cases hc : t.foldr max 0 ≤ a
    · left
      rw [max_eq_left hc]
      exact List.mem_cons_self a t
    · rw [max_eq_right (by omega)]
      rcases ih with hm | h0
      · left
        exact List.mem_cons_of_mem a hm
      · right
        exact h0

theorem count_le_maxCount {l : List (List Char)} {v : List Char} (h : v ∈ l) :
    l.count v ≤ maxCount l :=
  le_foldr_max _ _ (List.mem_map_of_mem _ h)

theorem maxCount_pos {l : List (List Char)} (h : l ≠ []) : 0 < maxCount l := by
  match l with
  | v :: t =>
    have h1 : 0 < List.count v (v :: t) := by
      simp [List.count_cons]
    have h2 := count_le_maxCount (List.mem_cons_self v t)
    omega

theorem exists_count_eq_maxCount {l : List (List Char)} (h : l ≠ []) :
    ∃ v ∈ l, l.count v = maxCount l := by
  rcases foldr_max_mem_or_zero (l.map (fun v => l.count v)) with hm | h0
  · obtain ⟨v, hv, he⟩ := List.mem_map.mp hm
    exact ⟨v, hv, he⟩
  · exact absurd h0 (by have := maxCount_pos h; rw [maxCount] at this; omega)

theorem firstMaxVal_spec {l : List (List Char)} (h : l ≠ []) :
    firstMaxVal l ∈ l ∧ l.count (firstMaxVal l) = maxCount l
    ∧ l.find? (fun v => l.count v == maxCount l) = some (firstMaxVal l) := by
  obtain ⟨v, hv, he⟩ := exists_count_eq_maxCount h
  have hsome : ∃ w, l.find? (fun v => l.count v == maxCount l) = some w := by
    cases hf : l.find? (fun v => l.count v == maxCount l) with
    | some w => exact ⟨w, rfl⟩
    | none =>
      rw [List.find?_eq_none] at hf
      exact absurd (by simpa using he) (hf v hv)
  obtain ⟨w, hw⟩ := hsome
  have h1 := List.find?_some hw
  have h2 := List.mem_of_find?_eq_some hw
  have h3 : firstMaxVal l = w := by
    rw [firstMaxVal, hw]
    rfl
  rw [h3]
  exact ⟨h2, by simpa using h1, hw⟩

/-- The index of the first occurrence of a reply in the array. -/
def posOf (w : List Char) : List (List Char) → Nat
  | [] => 0
  | a :: t => if a = w then 0 else posOf w t + 1

theorem posOf_cons_self (w : List Char) (t : List (List Char)) :
    posOf w (w :: t) = 0 := by
  simp [posOf]

theorem posOf_append_of_not_mem {w : List Char} : ∀ {l1 : List (List Char)}, w ∉ l1 →
    ∀ l2, posOf w (l1 ++ l2) = l1.length + posOf w l2 := by
  intro l1
  induction l1 with
  | nil =>
    intro _ l2
    simp
  | cons a t ih =>
    intro h l2
    have haw : ¬a = w := fun he => h (he ▸ List.mem_cons_self a t)
    have hwt : w ∉ t := fun hm => h (List.mem_cons_of_mem a hm)
    rw [List.cons_append, posOf, if_neg haw, ih hwt l2]
    simp
    omega

theorem find?_first {p : List Char → Bool} : ∀ {l : List (List Char)} {w : List Char},
    l.find? p = some w → ∀ x ∈ l, p x = true → posOf w l ≤ posOf x l := by
  intro l
  induction l with
  | nil =>
    intro w h
    simp [List.find?] at h
  | cons a t ih =>
    intro w h x hx hpx
    by_cases hpa : p a = true
    · rw [List.find?_cons_of_pos t hpa] at h
      cases h
      rw [posOf_cons_self]
      omega
    · rw [List.find?_cons_of_neg t hpa] at h
      have hwa : ¬a = w := by
        intro he
        have := List.find?_some h
        rw [← he] at this
        exact hpa this
      have hxa : ¬a = x := by
        intro he
        rw [← he] at hpx
        exact hpa hpx
      have hxt : x ∈ t := by
        rcases List.mem_cons.mp hx with rfl | h2
        · exact absurd hpx hpa
        · exact h2
      rw [posOf, posOf, if_neg hwa, if_neg hxa]
      have := ih h x hxt hpx
      omega

theorem getD_replicate {v : List Char} : ∀ {k off : Nat}, off < k →
    (List.replicate k v).getD off [] = v := by
  intro k
  induction k with
  | zero =>
    intro off h
    omega
  | succ n ih =>
    intro off h
    rw [List.replicate_succ]
    cases off with
    | zero => rw [List.getD_cons_zero]
    | succ m =>
      rw [List.getD_cons_succ]
      exact ih (by omega)

theorem blocky_getD : ∀ {l : List (List Char)}, Blocky l →
    ∀ {v : List Char} {off : Nat}, v ∈ l → off < l.count v →
    l.getD (posOf v l + off) [] = v := by
  intro l hb
  induction hb with
  | nil =>
    intro v off hv _
    simp at hv
  | block u k rest hk hu hbr ih =>
    intro v off hv hoff
    by_cases hvu : v = u
    · subst hvu
      rw [count_replicate_append_self hu] at hoff
      have hidx : posOf v (List.replicate k v ++ rest) = 0 := by
        obtain ⟨m, rfl⟩ : ∃ m, k = m + 1 := ⟨k - 1, by omega⟩
        rw [List.replicate_succ, List.cons_append, posOf_cons_self]
      rw [hidx, Nat.zero_add]
      rw [List.getD_append _ _ _ _ (by simpa using hoff)]
      exact getD_replicate hoff
    · have hvrest : v ∈ rest := by
        rcases List.mem_append.mp hv with h1 | h2
        · exact absurd (List.mem_replicate.mp h1).2 hvu
        · exact h2
      rw [count_replicate_append_other hvu] at hoff
      have hnotrep : v ∉ List.replicate k u := by
        intro hm
        exact hvu (List.mem_replicate.mp hm).2
      rw [posOf_append_of_not_mem hnotrep, List.length_replicate]
      rw [Nat.add_assoc]
      rw [List.getD_append_right _ _ _ _ (by rw [List.length_replicate]; omega)]
      rw [List.length_replicate, Nat.add_sub_cancel_left]
      exact ih hvrest hoff

theorem foldr_max_replicate (k x a : Nat) :
    (List.replicate k x).foldr max a = if k = 0 then a else max x a := by
  induction k with
  | zero => simp
  | succ n ih =>
    rw [List.replicate_succ, List.foldr_cons, ih]
    by_cases hn : n = 0
    · rw [if_pos hn, if_neg (by omega)]
    · rw [if_neg hn, if_neg (by omega), ← max_assoc, max_self]

theorem maxCount_replicate_append {v : List Char} {rest : List (List Char)}
    (hv : v ∉ rest) {k : Nat} (hk : 0 < k) :
    maxCount (List.replicate k v ++ rest) = max k (maxCount rest) := by
  rw [maxCount, List.map_append]
  have h1 : (List.replicate k v).map
      (fun w => List.count w (List.replicate k v ++ rest)) = List.replicate k k := by
    rw [List.map_replicate, count_replicate_append_self hv]
  have h2 : rest.map (fun w => List.count w (List.replicate k v ++ rest))
      = rest.map (fun w => List.count w rest) := by
    apply List.map_congr_left
    intro w hw
    have hwv : ¬w = v := fun he => hv (he ▸ hw)
    exact count_replicate_append_other hwv k rest
  rw [h1, h2, List.foldr_append, foldr_max_replicate]
  rw [if_neg (by omega)]
  rfl

theorem find?_congr {p q : List Char → Bool} : ∀ {l : List (List Char)},
    (∀ x ∈ l, p x = q x) → l.find? p = l.find? q := by
  intro l
  induction l with
  | nil =>
    intro _
    rfl
  | cons a t ih =>
    intro h
    have ha := h a (List.mem_cons_self a t)
    by_cases hpa : p a = true
    · rw [List.find?_cons_of_pos t hpa, List.find?_cons_of_pos t (ha ▸ hpa)]
    · rw [List.find?_cons_of_neg t hpa, List.find?_cons_of_neg t (by rw [← ha]; exact hpa)]
      exact ih (fun x hx => h x (List.mem_cons_of_mem a hx))

theorem firstMaxVal_big {v : List Char} {rest : List (List Char)} (hv : v ∉ rest)
    {k : Nat} (hk : 0 < k) (h : maxCount rest ≤ k) :
    firstMaxVal (List.replicate k v ++ rest) = v := by
  rw [firstMaxVal]
  obtain ⟨m, rfl⟩ : ∃ m, k = m + 1 := ⟨k - 1, by omega⟩
  have hpred : (List.count v (List.replicate (m + 1) v ++ rest)
      == maxCount (List.replicate (m + 1) v ++ rest)) = true := by
    rw [count_replicate_append_self hv, maxCount_replicate_append hv hk]
    simp
    omega
  conv_lhs => rw [List.replicate_succ, List.cons_append]
  rw [List.find?_cons_of_pos _ (by
    rw [← List.cons_append, ← List.replicate_succ]
    exact hpred)]
  rfl

theorem firstMaxVal_small {v : List Char} {rest : List (List Char)} (hv : v ∉ rest)
    {k : Nat} (hk : 0 < k) (h : k < maxCount rest) :
    firstMaxVal (List.replicate k v ++ rest) = firstMaxVal rest := by
  rw [firstMaxVal, firstMaxVal]
  rw [List.find?_append]
  have hnone : (List.replicate k v).find?
      (fun w => List.count w (List.replicate k v ++ rest)
        == maxCount (List.replicate k v ++ rest)) = none := by
    rw [List.find?_eq_none]
    intro x hx
    obtain ⟨-, rfl⟩ := List.mem_replicate.mp hx
    rw [count_replicate_append_self hv, maxCount_replicate_append hv hk]
    simp
    omega
  rw [hnone, Option.none_or]
  have hcong : rest.find?
      (fun w => List.count w (List.replicate k v ++ rest)
        == maxCount (List.replicate k v ++ rest))
      = rest.find? (fun w => List.count w rest == maxCount rest) := by
    apply find?_congr
    intro x hx
    have hxv : ¬x = v := fun he => hv (he ▸ hx)
    rw [count_replicate_append_other hxv, maxCount_replicate_append hv hk]
    rw [Nat.max_eq_right (by omega)]
  rw [hcong]

theorem scanBest_nil (prev : List Char) (idx count B bi : Nat) :
    scanBest [] prev idx count B bi = (bi, B) := rfl

theorem scanBest_cons (s : List Char) (rest : List (List Char))
    (prev : List Char) (idx count B bi : Nat) :
    scanBest (s :: rest) prev idx count B bi
      = if B < (if s = prev then count + 1 else 1) then
          scanBest rest s (idx + 1) (if s = prev then count + 1 else 1)
            (if s = prev then count + 1 else 1) idx
        else scanBest rest s (idx + 1) (if s = prev then count + 1 else 1) B bi := rfl

theorem scanBest_inblock : ∀ (m : Nat) (v : List Char) (rest : List (List Char))
    (idx count B bi : Nat), count ≤ B →
    scanBest (List.replicate m v ++ rest) v idx count B bi
      = scanBest rest v (idx + m) (count + m)
          (if B < count + m then count + m else B)
          (if B < count + m then idx + m - 1 else bi) := by
  intro m
  induction m with
  | zero =>
    intro v rest idx count B bi hcb
    rw [List.replicate_zero, List.nil_append]
    rw [if_neg (by omega), if_neg (by omega)]
    rw [Nat.add_zero, Nat.add_zero]
  | succ n ih =>
    intro v rest idx count B bi hcb
    rw [List.replicate_succ, List.cons_append, scanBest_cons]
    have hvv : (if v = v then count + 1 else 1) = count + 1 := if_pos rfl
    rw [hvv]
    by_cases hB : B < count + 1
    · rw [if_pos hB]
      rw [ih v rest (idx + 1) (count + 1) (count + 1) idx (le_refl _)]
      have hArgB : (if count + 1 < count + 1 + n then count + 1 + n else count + 1)
          = count + (n + 1) := by
        split_ifs <;> omega
      have hArgD : (if count + 1 < count + 1 + n then idx + 1 + n - 1 else idx)
          = idx + (n + 1) - 1 := by
        split_ifs <;> omega
      have hRB : (if B < count + (n + 1) then count + (n + 1) else B)
          = count + (n + 1) := by
        split_ifs <;> omega
      have hRD : (if B < count + (n + 1) then idx + (n + 1) - 1 else bi)
          = idx + (n + 1) - 1 := by
        split_ifs <;> omega
      rw [hArgB, hArgD, hRB, hRD]
      rw [show idx + 1 + n = idx + (n + 1) from by omega]
      rw [show count + 1 + n = count + (n + 1) from by omega]
    · rw [if_neg hB]
      rw [ih v rest (idx + 1) (count + 1) B bi (by omega)]
      rw [show idx + 1 + n = idx + (n + 1) from by omega]
      rw [show count + 1 + n = count + (n + 1) from by omega]

theorem scanBest_blocks : ∀ {rest : List (List Char)}, Blocky rest →
    ∀ (prev : List Char) (idx count B bi : Nat), prev ∉ rest → 1 ≤ B →
    scanBest rest prev idx count B bi
      = if maxCount rest ≤ B then (bi, B)
        else (idx + posOf (firstMaxVal rest) rest + maxCount rest - 1, maxCount rest) := by
  intro rest hb
  induction hb with
  | nil =>
    intro prev idx count B bi hpr hB
    rw [scanBest_nil]
    rw [if_pos (show maxCount ([] : List (List Char)) ≤ B by
      rw [maxCount]
      simp)]
  | block v k rest2 hk hv hbr ih =>
    intro prev idx count B bi hpr hB
    have hpv : ¬v = prev := by
      intro he
      exact hpr (List.mem_append_left _ (List.mem_replicate.mpr ⟨by omega, he.symm⟩))
    have hprest : prev ∉ rest2 := fun hm => hpr (List.mem_append_right _ hm)
    obtain ⟨m, rfl⟩ : ∃ m, k = m + 1 := ⟨k - 1, by omega⟩
    have hmc : maxCount (List.replicate (m + 1) v ++ rest2)
        = max (m + 1) (maxCount rest2) := maxCount_replicate_append hv hk
    have hstep : scanBest (List.replicate (m + 1) v ++ rest2) prev idx count B bi
        = scanBest rest2 v (idx + (m + 1)) (1 + m)
            (if B < 1 + m then 1 + m else B)
            (if B < 1 + m then idx + 1 + m - 1 else bi) := by
      conv_lhs => rw [List.replicate_succ, List.cons_append, scanBest_cons]
      rw [if_neg hpv]
      rw [if_neg (by omega)]
      rw [scanBest_inblock m v rest2 (idx + 1) 1 B bi hB]
      rw [show idx + 1 + m = idx + (m + 1) from by omega]
    rw [hstep]
    rw [ih v (idx + (m + 1)) (1 + m) _ _ hv (by split_ifs <;> omega)]
    rw [hmc]
    by_cases hB2 : B < 1 + m
    · rw [if_pos hB2, if_pos hB2]
      by_cases hc1 : maxCount rest2 ≤ m + 1
      · have hfm : firstMaxVal (List.replicate (m + 1) v ++ rest2) = v :=
          firstMaxVal_big hv hk hc1
        have hpos : posOf (firstMaxVal (List.replicate (m + 1) v ++ rest2))
            (List.replicate (m + 1) v ++ rest2) = 0 := by
          rw [hfm, List.replicate_succ, List.cons_append, posOf_cons_self]
        rw [hpos]
        rw [if_pos (show maxCount rest2 ≤ 1 + m by omega)]
        rw [if_neg (show ¬(max (m + 1) (maxCount rest2) ≤ B) by omega)]
        simp only [Prod.mk.injEq]
        constructor
        · omega
        · omega
      · have hrest2_ne : rest2 ≠ [] := by
          intro h0
          rw [h0] at hc1
          apply hc1
          rw [maxCount]
          simp
        have hfm2 := firstMaxVal_spec hrest2_ne
        have hfmv : ¬firstMaxVal rest2 = v := fun he => hv (he ▸ hfm2.1)
        have hfm : firstMaxVal (List.replicate (m + 1) v ++ rest2) = firstMaxVal rest2 :=
          firstMaxVal_small hv hk (by omega)
        have hpos : posOf (firstMaxVal (List.replicate (m + 1) v ++ rest2))
            (List.replicate (m + 1) v ++ rest2)
            = (m + 1) + posOf (firstMaxVal rest2) rest2 := by
          rw [hfm]
          rw [posOf_append_of_not_mem (fun hm2 => hfmv (List.mem_replicate.mp hm2).2)]
          rw [List.length_replicate]
        rw [hpos]
        rw [if_neg (show ¬(maxCount rest2 ≤ 1 + m) by omega)]
        rw [if_neg (show ¬(max (m + 1) (maxCount rest2) ≤ B) by omega)]
        simp only [Prod.mk.injEq]
        have h1 := maxCount_pos hrest2_ne
        constructor
        · omega
        · omega
    · rw [if_neg hB2, if_neg hB2]
      by_cases hc3 : maxCount rest2 ≤ B
      · rw [if_pos hc3]
        rw [if_pos (show max (m + 1) (maxCount rest2) ≤ B by omega)]
      · have hrest2_ne : rest2 ≠ [] := by
          intro h0
          rw [h0] at hc3
          apply hc3
          rw [maxCount]
          simp
        have hfm2 := firstMaxVal_spec hrest2_ne
        have hfmv : ¬firstMaxVal rest2 = v := fun he => hv (he ▸ hfm2.1)
        have hfm : firstMaxVal (List.replicate (m + 1) v ++ rest2) = firstMaxVal rest2 :=
          firstMaxVal_small hv hk (by omega)
        have hpos : posOf (firstMaxVal (List.replicate (m + 1) v ++ rest2))
            (List.replicate (m + 1) v ++ rest2)
            = (m + 1) + posOf (firstMaxVal rest2) rest2 := by
          rw [hfm]
          rw [posOf_append_of_not_mem (fun hm2 => hfmv (List.mem_replicate.mp hm2).2)]
          rw [List.length_replicate]
        rw [hpos]
        rw [if_neg hc3]
        rw [if_neg (show ¬(max (m + 1) (maxCount rest2) ≤ B) by omega)]
        simp only [Prod.mk.injEq]
        have h1 := maxCount_pos hrest2_ne
        constructor
        · omega
        · omega

theorem dropWhile_head_false {α : Type} (p : α → Bool) :
    ∀ {l : List α} {a : α} {t : List α}, l.dropWhile p = a :: t → p a = false := by
  intro l
  induction l with
  | nil =>
    intro a t h
    simp at h
  | cons x xs ih =>
    intro a t h
    rw [List.dropWhile_cons] at h
    by_cases hc : p x = true
    · rw [if_pos hc] at h
      exact ih h
    · rw [if_neg hc] at h
      cases h
      cases hpa : p x with
      | false => rfl
      | true => exact absurd hpa hc

/-- A case-insensitively sorted reply array in which distinct replies
never collide case-insensitively splits into constant blocks. -/
theorem blocky_of_sorted : ∀ (l : List (List Char)), List.Sorted caseLe l →
    (∀ a ∈ l, ∀ b ∈ l, lowerKey a = lowerKey b → a = b) → Blocky l := by
  have key : ∀ (n : Nat) (l : List (List Char)), l.length ≤ n → List.Sorted caseLe l →
      (∀ a ∈ l, ∀ b ∈ l, lowerKey a = lowerKey b → a = b) → Blocky l := by
    intro n
    induction n with
    | zero =>
      intro l hl _ _
      cases l with
      | nil => exact Blocky.nil
      | cons a t => simp at hl
    | succ n ih =>
      intro l hlen hs hinj
      cases l with
      | nil => exact Blocky.nil
      | cons v t =>
        have hdw : (t.takeWhile (fun x => x == v)) ++ (t.dropWhile (fun x => x == v)) = t :=
          List.takeWhile_append_dropWhile _ _
        have hp : ∀ x ∈ t.takeWhile (fun x => x == v), x = v := by
          intro x hx
          have h2 := List.mem_takeWhile_imp hx
          simpa using h2
        have hrep : t.takeWhile (fun x => x == v)
            = List.replicate (t.takeWhile (fun x => x == v)).length v :=
          List.eq_replicate_of_mem hp
        have hdecomp : v :: t
            = List.replicate ((t.takeWhile (fun x => x == v)).length + 1) v
              ++ t.dropWhile (fun x => x == v) := by
          rw [List.replicate_succ, List.cons_append, ← hrep, hdw]
        have hsubl : (t.dropWhile (fun x => x == v)).Sublist t :=
          List.dropWhile_sublist _
        have hsubl2 : (t.dropWhile (fun x => x == v)).Sublist (v :: t) :=
          hsubl.trans (List.sublist_cons_self v t)
        have hsorted_t : List.Sorted caseLe t := (List.sorted_cons.mp hs).2
        have hhead : ∀ b ∈ t, caseLe v b := (List.sorted_cons.mp hs).1
        have hsorted_r : List.Sorted caseLe (t.dropWhile (fun x => x == v)) :=
          List.Pairwise.sublist hsubl hsorted_t
        have hvr : v ∉ t.dropWhile (fun x => x == v) := by
          intro hm
          cases hr : t.dropWhile (fun x => x == v) with
          | nil =>
            rw [hr] at hm
            simp at hm
          | cons w r2 =>
            have hw : ¬w = v := by
              simpa using dropWhile_head_false (fun x => x == v) hr
            rw [hr] at hm
            have hvm : v ∈ r2 := by
              rcases List.mem_cons.mp hm with he | h2
              · exact absurd he.symm hw
              · exact h2
            have hwt : w ∈ t := hsubl.subset (hr ▸ List.mem_cons_self w r2)
            have h1 : lowerKey v ≤ lowerKey w := hhead w hwt
            have h2 : lowerKey w ≤ lowerKey v := by
              rw [hr] at hsorted_r
              exact (List.sorted_cons.mp hsorted_r).1 v hvm
            have hkey : lowerKey v = lowerKey w := le_antisymm h1 h2
            have hv_mem : v ∈ v :: t := List.mem_cons_self v t
            have hw_mem : w ∈ v :: t := List.mem_cons_of_mem v hwt
            exact hw (hinj w hw_mem v hv_mem hkey.symm)
        have hblocky : Blocky (t.dropWhile (fun x => x == v)) := by
          apply ih
          · have h1 := hsubl.length_le
            simp at hlen
            omega
          · exact hsorted_r
          · intro a ha b hb hk
            exact hinj a (hsubl2.subset ha) b (hsubl2.subset hb) hk
        rw [hdecomp]
        exact Blocky.block v _ _ (by omega) hvr hblocky
  intro l hs hinj
  exact key l.length l (le_refl _) hs hinj

/-- Combining the scan characterization with the block decomposition: on
a blocky nonempty array the reply at the best-run index is the first
reply of maximal multiplicity. -/
theorem getD_bestReply : ∀ {l : List (List Char)}, Blocky l → l ≠ [] →
    l.getD (bestReply l) [] = firstMaxVal l := by
  intro l hb hne
  cases hb with
  | nil => exact absurd rfl hne
  | block v k rest hk hv hbr =>
    obtain ⟨m, rfl⟩ : ∃ m, k = m + 1 := ⟨k - 1, by omega⟩
    have hcons : List.replicate (m + 1) v ++ rest = v :: (List.replicate m v ++ rest) := by
      rw [List.replicate_succ, List.cons_append]
    have hbr1 : bestReply (List.replicate (m + 1) v ++ rest)
        = (scanBest (List.replicate m v ++ rest) v 1 1 1 0).1 := by
      rw [hcons]
      rfl
    rw [hbr1]
    rw [scanBest_inblock m v rest 1 1 1 0 (le_refl 1)]
    rw [show (if 1 < 1 + m then 1 + m else 1) = m + 1 from by split_ifs <;> omega]
    rw [show (if 1 < 1 + m then 1 + m - 1 else 0) = m from by split_ifs <;> omega]
    rw [scanBest_blocks hbr v (1 + m) (1 + m) (m + 1) m hv (by omega)]
    by_cases hc1 : maxCount rest ≤ m + 1
    · rw [if_pos hc1]
      show (List.replicate (m + 1) v ++ rest).getD m []
        = firstMaxVal (List.replicate (m + 1) v ++ rest)
      have hfm : firstMaxVal (List.replicate (m + 1) v ++ rest) = v :=
        firstMaxVal_big hv (by omega) hc1
      rw [hfm]
      have h0 : posOf v (List.replicate (m + 1) v ++ rest) = 0 := by
        rw [List.replicate_succ, List.cons_append, posOf_cons_self]
      have hget := blocky_getD (Blocky.block v (m + 1) rest (by omega) hv hbr)
        (List.mem_append_left _ (List.mem_replicate.mpr ⟨by omega, rfl⟩))
        (show m < List.count v (List.replicate (m + 1) v ++ rest) by
          rw [count_replicate_append_self hv]
          omega)
      rw [h0, Nat.zero_add] at hget
      exact hget
    · rw [if_neg hc1]
      show (List.replicate (m + 1) v ++ rest).getD
          (1 + m + posOf (firstMaxVal rest) rest + maxCount rest - 1) []
        = firstMaxVal (List.replicate (m + 1) v ++ rest)
      have hrest_ne : rest ≠ [] := by
        intro h0
        rw [h0] at hc1
        apply hc1
        rw [maxCount]
        simp
      have hmcpos := maxCount_pos hrest_ne
      have hfm2 := firstMaxVal_spec hrest_ne
      have hfm : firstMaxVal (List.replicate (m + 1) v ++ rest) = firstMaxVal rest :=
        firstMaxVal_small hv (by omega) (by omega)
      rw [hfm]
      rw [show 1 + m + posOf (firstMaxVal rest) rest + maxCount rest - 1
          = (m + 1) + (posOf (firstMaxVal rest) rest + (maxCount rest - 1)) from by omega]
      rw [List.getD_append_right _ _ _ _ (by rw [List.length_replicate]; omega)]
      rw [List.length_replicate, Nat.add_sub_cancel_left]
      have hget := blocky_getD hbr hfm2.1
        (show maxCount rest - 1 < List.count (firstMaxVal rest) rest by
          rw [hfm2.2.1]
          omega)
      exact hget

theorem perm_count_eq {l1 l2 : List (List Char)} (h : List.Perm l1 l2)
    (a : List Char) : List.count a l1 = List.count a l2 := by
  rw [List.count_eq_countP, List.count_eq_countP]
  exact h.countP_eq _

/-- An identical reply sent by three workers: acknowledgement, two dead
groups c3 d4 on the first line, e5 on the second. -/
def rIdent : List Char := ['=', ' ', 'c', '3', ' ', 'd', '4', '\n', 'e', '5', '\n']

/-- A differing reply sharing the group c3 but not e5. -/
def rX : List Char := ['=', ' ', 'c', '3', '\n']

/-- A differing reply naming an unrelated group. -/
def rY : List Char := ['=', ' ', 'z', '9', '\n']

/-- C9 amended: distributed_dead_group_list selects the reply at the end
of the longest (first-completed) run of exactly equal neighbours in the
case-insensitively sorted reply array, and uses that reply's coordinate
list verbatim.  When no two distinct replies compare case-insensitively
equal (so textually equal replies are adjacent after sorting), this run
winner is exactly the most frequent exact textual match, ties of
occurrence count broken in favour of the reply occurring first in sorted
order - as the original claim states; without that proviso, case
collisions can split runs and elect a different reply (see the
counterexample).  In particular, with three identical replies and two
differing ones, the identical reply's coordinate list is returned
unchanged.  qsort with the strcasecmp comparator is modelled as a stable
insertion sort, one lawful outcome. -/
theorem dead_group_majority_vote (replies : List (List Char))
    (hne : replies ≠ [])
    (hinj : ∀ a ∈ replies, ∀ b ∈ replies, lowerKey a = lowerKey b → a = b) :
    selectedReply replies ∈ replies
    ∧ (∀ v ∈ replies, List.count v replies ≤ List.count (selectedReply replies) replies)
    ∧ (∀ v ∈ replies,
        List.count v replies = List.count (selectedReply replies) replies →
        posOf (selectedReply replies) (List.insertionSort caseLe replies)
          ≤ posOf v (List.insertionSort caseLe replies))
    ∧ distributed_dead_group_list replies = deadGroups (selectedReply replies)
    ∧ selectedReply [rX, rIdent, rIdent, rY, rIdent] = rIdent
    ∧ distributed_dead_group_list [rX, rIdent, rIdent, rY, rIdent]
        = [['c', '3'], ['e', '5']] := by
  have hperm := List.perm_insertionSort caseLe replies
  have hsorted := List.sorted_insertionSort caseLe replies
  have hinj2 : ∀ a ∈ List.insertionSort caseLe replies,
      ∀ b ∈ List.insertionSort caseLe replies, lowerKey a = lowerKey b → a = b :=
    fun a ha b hb => hinj a (hperm.subset ha) b (hperm.subset hb)
  have hb := blocky_of_sorted _ hsorted hinj2
  have hne2 : List.insertionSort caseLe replies ≠ [] := by
    intro h0
    have h2 := hperm
    rw [h0] at h2
    exact hne h2.symm.eq_nil
  have hsel : selectedReply replies
      = firstMaxVal (List.insertionSort caseLe replies) := getD_bestReply hb hne2
  have hfm := firstMaxVal_spec hne2
  refine ⟨?_, ?_, ?_, rfl, by decide, by decide⟩
  · rw [hsel]
    exact hperm.subset hfm.1
  · intro v hv
    have hv2 : v ∈ List.insertionSort caseLe replies := hperm.mem_iff.mpr hv
    have h1 := count_le_maxCount hv2
    rw [hsel, ← perm_count_eq hperm v, ← perm_count_eq hperm (firstMaxVal _), hfm.2.1]
    exact h1
  · intro v hv hcnt
    have hv2 : v ∈ List.insertionSort caseLe replies := hperm.mem_iff.mpr hv
    have hcv : List.count v (List.insertionSort caseLe replies)
        = maxCount (List.insertionSort caseLe replies) := by
      rw [perm_count_eq hperm v, hcnt, hsel, ← perm_count_eq hperm (firstMaxVal _)]
      exact hfm.2.1
    have hfirst := find?_first hfm.2.2 v hv2 (by simpa using hcv)
    rw [hsel]
    exact hfirst

/-- Witness: the five-reply instance (three identical, two differing)
satisfies the hypotheses of dead_group_majority_vote, and its conclusion
holds there. -/
theorem dead_group_majority_vote_witness :
    selectedReply [rX, rIdent, rIdent, rY, rIdent] ∈ [rX, rIdent, rIdent, rY, rIdent]
    ∧ distributed_dead_group_list [rX, rIdent, rIdent, rY, rIdent]
        = deadGroups (selectedReply [rX, rIdent, rIdent, rY, rIdent]) := by
  have h := dead_group_majority_vote [rX, rIdent, rIdent, rY, rIdent]
    (by decide) (by decide)
  exact ⟨h.1, h.2.2.2.1⟩

end Pachi
